import Mathlib

/-!
# ft_print_combn.c

A shallow embedding of `src/ft_print_combn.c` (functions `r`, `ft_print_combn`, `main`) and
the properties of its output.

Modelling conventions.
* `int` values are `Int`; every value the program computes for `1 ≤ n ≤ 9` stays far inside
  the 32-bit range, so no wrap-around is inserted in the arithmetic of `r`.
* The 36-byte buffer `(char *)(int [9]){n | 2108416}` is a `List Int` of length 36 holding the
  little-endian bytes of the first `int` followed by 32 zero bytes.
* The execution is recorded as a trace of events: every store `b[i + 3] = ...` and every call
  of `write`. A call of `write` is assumed to succeed and to return its length argument.
* In `(b[i + 3] = c + '0') + r(...)` and in `r(...) + write(1, "\n", 1)` the left operand is
  evaluated first.
-/

namespace FtPrintCombn

/-- An observable step: a store into the buffer, or a call `write(fd, src + off, len)`
where `src` is the content of the source object at the time of the call. -/
inductive Event where
  | store (idx : Int) (val : Int) : Event
  | write (fd : Int) (src : List Int) (off : Int) (len : Int) : Event
  deriving DecidableEq

/-- The machine state seen by `r`: the buffer `b` and the trace of events so far. -/
structure Mem where
  buf : List Int
  trace : List Event

/-- The assignment `b[k] = v`. -/
def storeByte (st : Mem) (k v : Int) : Mem :=
  { buf := st.buf.set k.toNat v, trace := st.trace ++ [Event.store k v] }

/-- The call `write(fd, src + off, len)`; the result is the new state and the returned
count. -/
def write (st : Mem) (fd : Int) (src : List Int) (off len : Int) : Mem × Int :=
  ({ st with trace := st.trace ++ [Event.write fd src off len] }, len)

/-- The read `b[k]`. -/
def rd (buf : List Int) (k : Nat) : Int := buf.getD k 0

mutual
/-- The loop `while (++c <= 9 && i != b[0]) (void)((b[i + 3] = c + '0') + r(b, i + 1, c,
first-- == 1));` of `r`. The result is the state and the value of `first` after the loop. -/
def rLoop (st : Mem) (i c first : Int) : Mem × Int :=
  if h : c + 1 ≤ 9 ∧ i ≠ rd st.buf 0 then
    rLoop (r (storeByte st (i + 3) (c + 1 + 48)) (i + 1) (c + 1)
      (if first = 1 then 1 else 0)).1 i (c + 1) (first - 1)
  else (st, first)
termination_by 2 * (10 - c).toNat
decreasing_by
  all_goals simp_wf
  all_goals omega
/-- The function `int r(char *b, int i, int c, int first)`: the loop, then
`return (i == b[0] && write(1, b + 1 + 2 * first, b[0] + 2 * !first));`. -/
def r (st : Mem) (i c first : Int) : Mem × Int :=
  let lp := rLoop st i c first
  if i = rd lp.1.buf 0 then
    let w := write lp.1 1 lp.1.buf (1 + 2 * lp.2)
      (rd lp.1.buf 0 + 2 * (if lp.2 = 0 then 1 else 0))
    (w.1, if w.2 ≠ 0 then 1 else 0)
  else (lp.1, 0)
termination_by 2 * (10 - c).toNat + 1
decreasing_by
  all_goals simp_wf
end

/-- The compound literal `(char *)((int [9]){n | 2108416})` viewed as 36 bytes. -/
def initBuf (n : Int) : List Int :=
  let v := Int.lor n 2108416 % 4294967296
  [v % 256, v / 256 % 256, v / 65536 % 256, v / 16777216 % 256] ++ List.replicate 32 0

/-- The function `void ft_print_combn(int n)`, run after the events `tr`: the root call
`r(b, 0, -1, 1)` and then `write(1, "\n", 1)`. The result is the trace afterwards. -/
def ft_print_combn (tr : List Event) (n : Int) : List Event :=
  (write (r { buf := initBuf n, trace := tr } 0 (-1) 1).1 1 [10, 0] 0 1).1.trace

/-- The loop `while (++i < 10) ft_print_combn(i);` of `main`. -/
def mainLoop (tr : List Event) (i : Int) : List Event :=
  if h : i + 1 < 10 then mainLoop (ft_print_combn tr (i + 1)) (i + 1) else tr
termination_by (10 - i).toNat
decreasing_by
  simp_wf
  omega

/-- The function `main`: `i = 0;` and the loop. The result is the trace of the run. -/
def main : List Event := mainLoop [] 0

/-- The bytes that an event puts on standard output. -/
def bytesOf : Event → List Int
  | Event.write 1 src off len => (src.drop off.toNat).take len.toNat
  | _ => []

/-- The content of standard output after a trace. -/
def outputOf (tr : List Event) : List Int := tr.flatMap bytesOf

/-- Whether an event is a call of `write`. -/
def isWrite : Event → Bool
  | Event.write _ _ _ _ => true
  | Event.store _ _ => false

/-- The calls of `write` in a trace, in order. -/
def writesOf (tr : List Event) : List Event := tr.filter isWrite

/-- The events of the root call `r(b, 0, -1, 1)` made by `ft_print_combn(n)`. Every call of
`write` among them is the base-case write of `r`. -/
def rTrace (n : Int) : List Event := (r ⟨initBuf n, []⟩ 0 (-1) 1).1.trace

/-- The bytes `b[3..3+n)` of the buffer handed to a call of `write`. -/
def combOf (n : Int) : Event → List Int
  | Event.write _ src _ _ => (src.drop 3).take n.toNat
  | Event.store _ _ => []

/-- The printed combinations of `ft_print_combn(n)`: the bytes `b[3..3+n)` at each
base-case write of `r`, in the order of the writes. -/
def printed (n : Int) : List (List Int) := (writesOf (rTrace n)).map (combOf n)

/-- Reference enumeration: the strictly increasing sequences of `k` digits drawn from the
last `m` digits `10 - m, ..., 9`, in ascending lexicographic order. -/
def incSeqs : Nat → Nat → List (List Nat)
  | 0, _ => [[]]
  | _ + 1, 0 => []
  | k + 1, m + 1 => (incSeqs k m).map (fun s => (9 - m) :: s) ++ incSeqs (k + 1) m

/-- The ASCII characters of a sequence of digits. -/
def render (s : List Nat) : List Int := s.map (fun (d : Nat) => (d : Int) + 48)

/-- The bytes of a string literal. -/
def ascii (s : String) : List Int := s.toList.map (fun ch => (ch.toNat : Int))

/-- Lexicographic order on byte sequences. -/
def lexLt : List Int → List Int → Prop
  | [], [] => False
  | [], _ :: _ => True
  | _ :: _, [] => False
  | a :: s, b :: t => a < b ∨ (a = b ∧ lexLt s t)

/-- The base-10 integer that a sequence of ASCII digits denotes. -/
def decVal : List Int → Int
  | [] => 0
  | b :: t => (b - 48) * 10 ^ t.length + decVal t

/-- Auxiliary for `linesOf`: `cur` is the current segment, reversed. -/
def linesGo : List Int → List Int → List (List Int)
  | _, [] => []
  | cur, b :: t => if b = 10 then cur.reverse :: linesGo [] t else linesGo (b :: cur) t

/-- The lines of an output: its newline-terminated segments, without the newline. -/
def linesOf (out : List Int) : List (List Int) := linesGo [] out

/-- The base-case write of `r` at a complete combination `s`, with flag `f`, when the buffer
is `pre ++ render s ++ post`. -/
def leafWrite (n : Int) (pre post : List Int) (f : Int) (s : List Nat) : Event :=
  Event.write 1 (pre ++ render s ++ post) (1 + 2 * f) (n + 2 * (if f = 0 then 1 else 0))

/-- The base-case writes for a list of combinations: the first with flag `f`, the later
ones with flag `0`. -/
def emit (n : Int) (pre post : List Int) : Int → List (List Nat) → List Event
  | _, [] => []
  | f, s :: L => leafWrite n pre post f s :: emit n pre post 0 L

/-- The effect of the loop of `r` at depth `i`, with `k + 1` digits still to choose and the
candidates `10 - m, ..., 9` left. -/
def LoopSpec (m : Nat) : Prop :=
  ∀ (k i : Nat) (pre mid post : List Int) (tr : List Event) (first : Int),
    pre.length = i + 3 → rd pre 0 = ((i + k + 1 : Nat) : Int) → mid.length = k + 1 → first ≤ 1 →
    ∃ mid', mid'.length = k + 1 ∧
      (rLoop ⟨pre ++ mid ++ post, tr⟩ i (9 - m) first).1.buf = pre ++ mid' ++ post ∧
      writesOf (rLoop ⟨pre ++ mid ++ post, tr⟩ i (9 - m) first).1.trace =
        writesOf tr ++ emit ((i + k + 1 : Nat) : Int) pre post (if first = 1 then 1 else 0)
          (incSeqs (k + 1) m)

/-- The effect of a call of `r` at depth `i`, with `k` digits still to choose and the
candidates `10 - m, ..., 9` left. -/
def CallSpec (m : Nat) : Prop :=
  ∀ (k i : Nat) (pre mid post : List Int) (tr : List Event) (first : Int),
    pre.length = i + 3 → rd pre 0 = ((i + k : Nat) : Int) → mid.length = k →
    (first = 0 ∨ first = 1) →
    ∃ mid', mid'.length = k ∧
      (r ⟨pre ++ mid ++ post, tr⟩ i (9 - m) first).1.buf = pre ++ mid' ++ post ∧
      writesOf (r ⟨pre ++ mid ++ post, tr⟩ i (9 - m) first).1.trace =
        writesOf tr ++ emit ((i + k : Nat) : Int) pre post first (incSeqs k m)

/-- A logged call `r(b, i, c, first)`. -/
structure Call where
  i : Int
  c : Int
  first : Int

/-- The call `write(fd, src + off, len)` when the results of `write` are given by `ω`: the
call made after `k` earlier calls of `write` returns `ω k`. -/
def writeO (ω : Nat → Int) (st : Mem) (fd : Int) (src : List Int) (off len : Int) :
    Mem × Int :=
  ({ st with trace := st.trace ++ [Event.write fd src off len] }, ω (writesOf st.trace).length)

mutual
/-- The loop of `r`, instrumented: the results of `write` are given by `ω` and every call
of `r` is logged. The result is the state, the value of `first` after the loop, and the
calls of `r` made by the loop, in order. -/
def rLoopI (ω : Nat → Int) (st : Mem) (i c first : Int) : Mem × Int × List Call :=
  if h : c + 1 ≤ 9 ∧ i ≠ rd st.buf 0 then
    ((rLoopI ω (rI ω (storeByte st (i + 3) (c + 1 + 48)) (i + 1) (c + 1)
        (if first = 1 then 1 else 0)).1 i (c + 1) (first - 1)).1,
      (rLoopI ω (rI ω (storeByte st (i + 3) (c + 1 + 48)) (i + 1) (c + 1)
        (if first = 1 then 1 else 0)).1 i (c + 1) (first - 1)).2.1,
      (rI ω (storeByte st (i + 3) (c + 1 + 48)) (i + 1) (c + 1)
        (if first = 1 then 1 else 0)).2.2 ++
      (rLoopI ω (rI ω (storeByte st (i + 3) (c + 1 + 48)) (i + 1) (c + 1)
        (if first = 1 then 1 else 0)).1 i (c + 1) (first - 1)).2.2)
  else (st, first, [])
termination_by 2 * (10 - c).toNat
decreasing_by
  all_goals simp_wf
  all_goals omega
/-- The function `r`, instrumented: the results of `write` are given by `ω` and every call
of `r` is logged. The result is the state, the returned value, and the calls of `r` made,
this call first. -/
def rI (ω : Nat → Int) (st : Mem) (i c first : Int) : Mem × Int × List Call :=
  let lp := rLoopI ω st i c first
  if i = rd lp.1.buf 0 then
    let w := writeO ω lp.1 1 lp.1.buf (1 + 2 * lp.2.1)
      (rd lp.1.buf 0 + 2 * (if lp.2.1 = 0 then 1 else 0))
    (w.1, if w.2 ≠ 0 then 1 else 0, ⟨i, c, first⟩ :: lp.2.2)
  else (lp.1, 0, ⟨i, c, first⟩ :: lp.2.2)
termination_by 2 * (10 - c).toNat + 1
decreasing_by
  all_goals simp_wf
end

/-- The function `ft_print_combn`, with the results of `write` given by `ω`. -/
def ft_print_combnO (ω : Nat → Int) (tr : List Event) (n : Int) : List Event :=
  (writeO ω (rI ω { buf := initBuf n, trace := tr } 0 (-1) 1).1 1 [10, 0] 0 1).1.trace

/-- The calls of `r` made during `ft_print_combn(n)`, the root call first. -/
def callsOf (ω : Nat → Int) (n : Int) : List Call :=
  (rI ω { buf := initBuf n, trace := [] } 0 (-1) 1).2.2

/-- Every store among the events `new` has its index in `lo..hi1` and in `lo..hi2` and
stores an ASCII digit. -/
def StoresIn (lo hi1 hi2 : Int) (new : List Event) : Prop :=
  ∀ idx val, Event.store idx val ∈ new →
    lo ≤ idx ∧ idx ≤ hi1 ∧ idx ≤ hi2 ∧ 48 ≤ val ∧ val ≤ 57

/-- Frame property of the loop of `r` at depth `i` with the candidates `10 - m, ..., 9`
left: it appends events, keeps `b[0]` and the length of the buffer, stores only digits at
indices from `i + 3` to `b[0] + 2` and to `i + 2 + m`, and makes no call of `write` when
fewer than `b[0] - i` candidates are left. -/
def LoopFrame (m : Nat) : Prop :=
  ∀ (st : Mem) (i first : Int), 0 ≤ i → i ≤ rd st.buf 0 →
    ∃ new, (rLoop st i (9 - m) first).1.trace = st.trace ++ new ∧
      rd (rLoop st i (9 - m) first).1.buf 0 = rd st.buf 0 ∧
      (rLoop st i (9 - m) first).1.buf.length = st.buf.length ∧
      StoresIn (i + 3) (rd st.buf 0 + 2) (i + 2 + m) new ∧
      ((m : Int) < rd st.buf 0 - i → writesOf new = [])

/-- Frame property of a call of `r`, as `LoopFrame`. -/
def CallFrame (m : Nat) : Prop :=
  ∀ (st : Mem) (i first : Int), 0 ≤ i → i ≤ rd st.buf 0 →
    ∃ new, (r st i (9 - m) first).1.trace = st.trace ++ new ∧
      rd (r st i (9 - m) first).1.buf 0 = rd st.buf 0 ∧
      (r st i (9 - m) first).1.buf.length = st.buf.length ∧
      StoresIn (i + 3) (rd st.buf 0 + 2) (i + 2 + m) new ∧
      ((m : Int) < rd st.buf 0 - i → writesOf new = [])

/-- Property of the calls of `r` made by the loop at depth `i` with the candidates
`10 - m, ..., 9` left: each has a larger `c`, at most 9, a larger depth, at most `b[0]`, and
a flag 0 or 1; fewer than `2 ^ m` calls are made. -/
def LoopCalls (m : Nat) : Prop :=
  ∀ (ω : Nat → Int) (st : Mem) (i first : Int), 0 ≤ i → i ≤ rd st.buf 0 →
    (∀ q ∈ (rLoopI ω st i (9 - m) first).2.2,
      9 - (m : Int) < q.c ∧ q.c ≤ 9 ∧ i < q.i ∧ q.i ≤ rd st.buf 0 ∧
        (q.first = 0 ∨ q.first = 1)) ∧
      (rLoopI ω st i (9 - m) first).2.2.length + 1 ≤ 2 ^ m

/-- Every call of `write` among the events `new` reads in `b[3..3+n)` only bytes that an
earlier store, among the events `base` or earlier in `new`, has put there. -/
def Justified (n : Nat) (base new : List Event) : Prop :=
  ∀ (t1 t2 : List Event) (fd : Int) (src : List Int) (off len : Int),
    new = t1 ++ Event.write fd src off len :: t2 →
    ∀ j : Nat, 3 ≤ j → j < 3 + n → Event.store (j : Int) (rd src j) ∈ base ++ t1

/-- The loop of `r` at depth `i`, started with every byte of the prefix `b[3..3+i)` put
there by an earlier store, makes only justified calls of `write`. -/
def LoopJust (m : Nat) : Prop :=
  ∀ (k i : Nat) (pre mid post : List Int) (tr : List Event) (first : Int),
    pre.length = i + 3 → rd pre 0 = ((i + k + 1 : Nat) : Int) → mid.length = k + 1 →
    (∀ j : Nat, 3 ≤ j → j < i + 3 → Event.store (j : Int) (rd pre j) ∈ tr) →
    ∃ mid' new, mid'.length = k + 1 ∧
      (rLoop ⟨pre ++ mid ++ post, tr⟩ i (9 - m) first).1 = ⟨pre ++ mid' ++ post, tr ++ new⟩ ∧
      Justified (i + k + 1) tr new

/-- A call of `r` at depth `i`, started with every byte of the prefix `b[3..3+i)` put there
by an earlier store, makes only justified calls of `write`. -/
def CallJust (m : Nat) : Prop :=
  ∀ (k i : Nat) (pre mid post : List Int) (tr : List Event) (first : Int),
    pre.length = i + 3 → rd pre 0 = ((i + k : Nat) : Int) → mid.length = k →
    (∀ j : Nat, 3 ≤ j → j < i + 3 → Event.store (j : Int) (rd pre j) ∈ tr) →
    ∃ mid' new, mid'.length = k ∧
      (r ⟨pre ++ mid ++ post, tr⟩ i (9 - m) first).1 = ⟨pre ++ mid' ++ post, tr ++ new⟩ ∧
      Justified (i + k) tr new

/-! ## Unfolding of the recursive definitions -/

theorem rLoop_exit (st : Mem) (i c first : Int) (h : ¬ (c + 1 ≤ 9 ∧ i ≠ rd st.buf 0)) :
    rLoop st i c first = (st, first) := by
  rw [rLoop]
  simp [h]

theorem rLoop_iter (st : Mem) (i c first : Int) (h : c + 1 ≤ 9 ∧ i ≠ rd st.buf 0) :
    rLoop st i c first =
      rLoop (r (storeByte st (i + 3) (c + 1 + 48)) (i + 1) (c + 1)
        (if first = 1 then 1 else 0)).1 i (c + 1) (first - 1) := by
  rw [rLoop]
  simp [h]

theorem r_leaf (st : Mem) (i c first : Int) (h : i = rd (rLoop st i c first).1.buf 0) :
    (r st i c first).1 = (write (rLoop st i c first).1 1 (rLoop st i c first).1.buf
      (1 + 2 * (rLoop st i c first).2)
      (rd (rLoop st i c first).1.buf 0 + 2 * (if (rLoop st i c first).2 = 0 then 1 else 0))).1 := by
  rw [r]
  simp [← h]

theorem r_inner (st : Mem) (i c first : Int) (h : i ≠ rd (rLoop st i c first).1.buf 0) :
    (r st i c first).1 = (rLoop st i c first).1 := by
  rw [r]
  simp [h]

theorem writesOf_append (a b : List Event) : writesOf (a ++ b) = writesOf a ++ writesOf b := by
  simp [writesOf]

theorem incSeqs_eq_nil {k m : Nat} (h : m < k) : incSeqs k m = [] := by
  induction m generalizing k with
  | zero =>
    cases k with
    | zero => omega
    | succ k => rfl
  | succ m ih =>
    cases k with
    | zero => omega
    | succ k =>
      rw [incSeqs, ih (by omega), ih (by omega)]
      rfl

theorem incSeqs_ne_nil {k m : Nat} (h : k ≤ m) : incSeqs k m ≠ [] := by
  induction m generalizing k with
  | zero =>
    obtain rfl : k = 0 := by omega
    simp [incSeqs]
  | succ m ih =>
    cases k with
    | zero => simp [incSeqs]
    | succ k =>
      rw [incSeqs]
      have := ih (show k ≤ m by omega)
      simp [this]

theorem emit_zero_append (n : Int) (pre post : List Int) (A B : List (List Nat)) :
    emit n pre post 0 (A ++ B) = emit n pre post 0 A ++ emit n pre post 0 B := by
  induction A with
  | nil => simp [emit]
  | cons a A ih => simp [emit, ih]

theorem emit_append (n : Int) (pre post : List Int) (f : Int) (A B : List (List Nat))
    (h : A = [] → B = []) :
    emit n pre post f (A ++ B) = emit n pre post f A ++ emit n pre post 0 B := by
  cases A with
  | nil => simp [h rfl, emit]
  | cons a A => simp [emit, emit_zero_append]

theorem emit_snoc_pre (n : Int) (pre post : List Int) (d : Nat) (f : Int) (L : List (List Nat)) :
    emit n (pre ++ [(d : Int) + 48]) post f L = emit n pre post f (L.map (fun s => d :: s)) := by
  induction L generalizing f with
  | nil => rfl
  | cons s L ih => simp [emit, ih, leafWrite, render]

theorem rd_append_left (pre rest : List Int) (h : 0 < pre.length) :
    rd (pre ++ rest) 0 = rd pre 0 := by
  cases pre with
  | nil => simp at h
  | cons a t => rfl

theorem call_of_loop (m : Nat) (hA : LoopSpec m) : CallSpec m := by
  intro k i pre mid post tr first hpre hn hmid hf
  cases k with
  | zero =>
    have hmid0 : mid = [] := List.length_eq_zero.mp hmid
    subst hmid0
    have hrd : rd (pre ++ [] ++ post) 0 = (i : Int) := by
      rw [List.append_assoc, rd_append_left _ _ (by omega), hn]
      simp
    have hexit : rLoop ⟨pre ++ [] ++ post, tr⟩ i (9 - m) first = (⟨pre ++ [] ++ post, tr⟩, first) :=
      rLoop_exit _ _ _ _ (fun h => h.2 hrd.symm)
    refine ⟨[], rfl, ?_, ?_⟩
    · rw [r_leaf _ _ _ _ (by rw [hexit]; exact hrd.symm), hexit]
      rfl
    · rw [r_leaf _ _ _ _ (by rw [hexit]; exact hrd.symm), hexit]
      simp only [write, writesOf_append, hrd]
      simp [writesOf, isWrite, incSeqs, emit, leafWrite, render]
  | succ k =>
    obtain ⟨mid', hlen, hbuf, htr⟩ := hA k i pre mid post tr first hpre hn hmid (by omega)
    have hne : (i : Int) ≠ rd (rLoop ⟨pre ++ mid ++ post, tr⟩ i (9 - m) first).1.buf 0 := by
      rw [hbuf, List.append_assoc, rd_append_left _ _ (by omega), hn]
      push_cast
      omega
    refine ⟨mid', hlen, ?_, ?_⟩
    · rw [r_inner _ _ _ _ hne, hbuf]
    · rw [r_inner _ _ _ _ hne, htr]
      rcases hf with h | h <;> simp [h, add_assoc]

theorem loop_zero : LoopSpec 0 := by
  intro k i pre mid post tr first hpre hn hmid hf
  refine ⟨mid, hmid, ?_, ?_⟩
  · rw [rLoop_exit _ _ _ _ (by simp)]
  · rw [rLoop_exit _ _ _ _ (by simp)]
    simp [incSeqs, emit]

theorem loop_succ (m : Nat) (hm : m + 1 ≤ 10) (hA : LoopSpec m) (hB : CallSpec m) :
    LoopSpec (m + 1) := by
  intro k i pre mid post tr first hpre hn hmid hf
  obtain ⟨x, mt, rfl⟩ : ∃ x mt, mid = x :: mt := by
    cases mid with
    | nil => simp at hmid
    | cons x mt => exact ⟨x, mt, rfl⟩
  have hmt : mt.length = k := by simpa using hmid
  have hc : (9 : Int) - ((m + 1 : Nat) : Int) + 1 = 9 - (m : Int) := by push_cast; ring
  have hguard : (9 : Int) - ((m + 1 : Nat) : Int) + 1 ≤ 9 ∧
      (i : Int) ≠ rd (Mem.mk (pre ++ x :: mt ++ post) tr).buf 0 := by
    refine ⟨by omega, ?_⟩
    show (i : Int) ≠ rd (pre ++ x :: mt ++ post) 0
    rw [List.append_assoc, rd_append_left _ _ (by omega), hn]
    push_cast
    omega
  have hv : (9 : Int) - (m : Int) + 48 = ((9 - m : Nat) : Int) + 48 := by omega
  have hstore : storeByte ⟨pre ++ x :: mt ++ post, tr⟩ ((i : Int) + 3)
      (((9 - m : Nat) : Int) + 48) =
      ⟨(pre ++ [((9 - m : Nat) : Int) + 48]) ++ mt ++ post,
        tr ++ [Event.store ((i : Int) + 3) (((9 - m : Nat) : Int) + 48)]⟩ := by
    have h3 : ((i : Int) + 3).toNat = pre.length := by rw [hpre]; omega
    simp only [storeByte, h3]
    congr 1
    simp [List.set_append_right]
  rw [rLoop_iter _ _ _ _ hguard, hc, hv, hstore]
  have hpre' : (pre ++ [((9 - m : Nat) : Int) + 48]).length = (i + 1) + 3 := by
    simp [hpre]
  have hn' : rd (pre ++ [((9 - m : Nat) : Int) + 48]) 0 = (((i + 1) + k : Nat) : Int) := by
    rw [rd_append_left _ _ (by omega), hn]
    push_cast
    ring
  obtain ⟨mt', hlen', hbuf', htr'⟩ := hB k (i + 1) _ mt post
    (tr ++ [Event.store ((i : Int) + 3) (((9 - m : Nat) : Int) + 48)])
    (if first = 1 then 1 else 0) hpre' hn' hmt (by split <;> simp)
  have hi1 : ((i + 1 : Nat) : Int) = (i : Int) + 1 := by push_cast; rfl
  rw [hi1] at hbuf' htr'
  generalize (r ⟨(pre ++ [((9 - m : Nat) : Int) + 48]) ++ mt ++ post,
    tr ++ [Event.store ((i : Int) + 3) (((9 - m : Nat) : Int) + 48)]⟩ ((i : Int) + 1)
    (9 - (m : Int)) (if first = 1 then 1 else 0)).1 = S at hbuf' htr' ⊢
  obtain ⟨sb, stt⟩ := S
  simp only at hbuf' htr'
  subst hbuf'
  have hmid2 : ((((9 - m : Nat) : Int) + 48) :: mt').length = k + 1 := by simp [hlen']
  have hbufeq : pre ++ [((9 - m : Nat) : Int) + 48] ++ mt' ++ post =
      pre ++ ((((9 - m : Nat) : Int) + 48) :: mt') ++ post := by simp
  rw [hbufeq]
  obtain ⟨mid2, hlen2, hbuf2, htr2⟩ := hA k i pre ((((9 - m : Nat) : Int) + 48) :: mt') post stt
    (first - 1) hpre hn hmid2 (by omega)
  refine ⟨mid2, hlen2, hbuf2, ?_⟩
  have hflag : (if first - 1 = 1 then (1 : Int) else 0) = 0 := by
    rw [if_neg]
    omega
  have hnil : (incSeqs k m).map (fun s => (9 - m) :: s) = [] → incSeqs (k + 1) m = [] := by
    intro h
    have h0 : incSeqs k m = [] := by simpa using h
    have hlt : ¬ k ≤ m := fun hle => incSeqs_ne_nil hle h0
    exact incSeqs_eq_nil (by omega)
  have hnk : ((i + 1 + k : Nat) : Int) = ((i + k + 1 : Nat) : Int) := by push_cast; ring
  rw [htr2, htr', hflag, writesOf_append, incSeqs, emit_append _ _ _ _ _ _ hnil, emit_snoc_pre,
    hnk]
  simp [writesOf, isWrite]

theorem loop_call_spec (m : Nat) (hm : m ≤ 10) : LoopSpec m ∧ CallSpec m := by
  induction m with
  | zero => exact ⟨loop_zero, call_of_loop 0 loop_zero⟩
  | succ m ih =>
    have h := ih (by omega)
    have hl := loop_succ m hm h.1 h.2
    exact ⟨hl, call_of_loop (m + 1) hl⟩

theorem lor_small : ∀ n < 128, n ||| 2108416 = n + 2108416 := by decide

theorem initBuf_eq (n : Nat) (h : n ≤ 127) :
    initBuf n = [(n : Int), 44, 32] ++ List.replicate 33 0 := by
  have h1 : Int.lor (n : Int) 2108416 = ((n ||| 2108416 : Nat) : Int) := rfl
  have h2 := lor_small n (by omega)
  simp only [initBuf, h1, h2]
  have e0 : ((n + 2108416 : Nat) : Int) % 4294967296 % 256 = n := by omega
  have e1 : ((n + 2108416 : Nat) : Int) % 4294967296 / 256 % 256 = 44 := by omega
  have e2 : ((n + 2108416 : Nat) : Int) % 4294967296 / 65536 % 256 = 32 := by omega
  have e3 : ((n + 2108416 : Nat) : Int) % 4294967296 / 16777216 % 256 = 0 := by omega
  rw [e0, e1, e2, e3]
  rfl

theorem root_spec (n : Nat) (h : n ≤ 33) (tr : List Event) :
    writesOf (r ⟨initBuf n, tr⟩ 0 (-1) 1).1.trace =
      writesOf tr ++ emit n [(n : Int), 44, 32] (List.replicate (33 - n) 0) 1 (incSeqs n 10) := by
  have hsplit : (List.replicate 33 (0 : Int)) =
      List.replicate n 0 ++ List.replicate (33 - n) 0 := by
    rw [List.append_replicate_replicate]
    congr 1
    omega
  rw [initBuf_eq n (by omega), hsplit, ← List.append_assoc]
  obtain ⟨_, _, _, htr⟩ := (loop_call_spec 10 (le_refl 10)).2 n 0 [(n : Int), 44, 32]
    (List.replicate n 0) (List.replicate (33 - n) 0) tr 1 rfl (by simp [rd]) (by simp)
    (Or.inr rfl)
  have hc : (9 : Int) - ((10 : Nat) : Int) = -1 := by norm_num
  rw [hc] at htr
  simpa using htr

theorem incSeqs_length_of_mem {k m : Nat} {s : List Nat} (h : s ∈ incSeqs k m) :
    s.length = k := by
  induction m generalizing k s with
  | zero =>
    cases k with
    | zero => simp [incSeqs] at h; simp [h]
    | succ k => simp [incSeqs] at h
  | succ m ih =>
    cases k with
    | zero => simp [incSeqs] at h; simp [h]
    | succ k =>
      rw [incSeqs, List.mem_append, List.mem_map] at h
      rcases h with ⟨t, ht, rfl⟩ | h
      · simp [ih ht]
      · exact ih h

theorem render_length (s : List Nat) : (render s).length = s.length := by
  simp [render]

theorem combOf_leafWrite (n : Nat) (a b c : Int) (post : List Int) (f : Int) (s : List Nat)
    (hs : s.length = n) :
    combOf n (leafWrite n [a, b, c] post f s) = render s := by
  simp only [combOf, leafWrite, List.append_assoc, List.cons_append, List.nil_append,
    List.drop_succ_cons, List.drop_zero, Int.toNat_ofNat]
  rw [List.take_append_of_le_length (by rw [render_length, hs])]
  rw [List.take_of_length_le (by rw [render_length, hs])]

theorem map_combOf_emit (n : Nat) (a b c : Int) (post : List Int) (f : Int)
    (L : List (List Nat)) (hL : ∀ s ∈ L, s.length = n) :
    (emit n [a, b, c] post f L).map (combOf n) = L.map render := by
  induction L generalizing f with
  | nil => rfl
  | cons s L ih =>
    simp only [emit, List.map_cons]
    rw [combOf_leafWrite n a b c post f s (hL s (List.mem_cons_self _ _)),
      ih 0 (fun t ht => hL t (List.mem_cons_of_mem _ ht))]

theorem writesOf_rTrace (n : Nat) (h : n ≤ 33) :
    writesOf (rTrace n) =
      emit n [(n : Int), 44, 32] (List.replicate (33 - n) 0) 1 (incSeqs n 10) := by
  have := root_spec n h []
  simpa [rTrace, writesOf] using this

theorem printed_eq (n : Nat) (h : n ≤ 33) : printed n = (incSeqs n 10).map render := by
  rw [printed, writesOf_rTrace n h]
  exact map_combOf_emit n _ _ _ _ _ _ (fun s hs => incSeqs_length_of_mem hs)

theorem outputOf_append (a b : List Event) : outputOf (a ++ b) = outputOf a ++ outputOf b := by
  simp [outputOf]

theorem outputOf_writesOf (tr : List Event) : outputOf (writesOf tr) = outputOf tr := by
  induction tr with
  | nil => rfl
  | cons e t ih =>
    cases e with
    | store i v =>
      have h1 : writesOf (Event.store i v :: t) = writesOf t := by simp [writesOf, isWrite]
      have h2 : outputOf (Event.store i v :: t) = outputOf t := by simp [outputOf, bytesOf]
      rw [h1, h2, ih]
    | write fd src off len =>
      have h1 : writesOf (Event.write fd src off len :: t) =
          Event.write fd src off len :: writesOf t := by simp [writesOf, isWrite]
      have h2 : ∀ u, outputOf (Event.write fd src off len :: u) =
          bytesOf (Event.write fd src off len) ++ outputOf u := by
        intro u; simp [outputOf]
      rw [h1, h2, h2, ih]

theorem bytesOf_leaf_first (n : Nat) (a b c : Int) (post : List Int) (s : List Nat)
    (hs : s.length = n) :
    bytesOf (leafWrite n [a, b, c] post 1 s) = render s := by
  have h3 : ((1 : Int) + 2 * 1).toNat = 3 := by decide
  have hn : ((n : Int) + 2 * (if (1 : Int) = 0 then 1 else 0)).toNat = n := by simp
  rw [leafWrite, bytesOf, h3, hn]
  simp only [List.append_assoc, List.cons_append, List.nil_append,
    List.drop_succ_cons, List.drop_zero]
  rw [List.take_append_of_le_length (by rw [render_length, hs])]
  rw [List.take_of_length_le (by rw [render_length, hs])]

theorem bytesOf_leaf_later (n : Nat) (a b c : Int) (post : List Int) (s : List Nat)
    (hs : s.length = n) :
    bytesOf (leafWrite n [a, b, c] post 0 s) = [b, c] ++ render s := by
  have h1 : ((1 : Int) + 2 * 0).toNat = 1 := by decide
  have hn : ((n : Int) + 2 * (if (0 : Int) = 0 then 1 else 0)).toNat = n + 2 := by
    simp
    omega
  rw [leafWrite, bytesOf, h1, hn]
  simp only [List.append_assoc, List.cons_append, List.nil_append,
    List.drop_succ_cons, List.drop_zero, List.take_succ_cons]
  rw [List.take_append_of_le_length (by rw [render_length, hs])]
  rw [List.take_of_length_le (by rw [render_length, hs])]

theorem outputOf_emit_zero (n : Nat) (a b c : Int) (post : List Int) (L : List (List Nat))
    (hL : ∀ s ∈ L, s.length = n) :
    outputOf (emit n [a, b, c] post 0 L) = L.flatMap (fun s => [b, c] ++ render s) := by
  induction L with
  | nil => rfl
  | cons s L ih =>
    have hs := hL s (List.mem_cons_self _ _)
    have ih' := ih (fun t ht => hL t (List.mem_cons_of_mem _ ht))
    simp only [emit, outputOf, List.flatMap_cons] at ih' ⊢
    rw [bytesOf_leaf_later n a b c post s hs, ih']

theorem intercalate_cons (sep x : List Int) (xs : List (List Int)) :
    List.intercalate sep (x :: xs) = x ++ xs.flatMap (fun s => sep ++ s) := by
  induction xs generalizing x with
  | nil => simp [List.intercalate]
  | cons y ys ih =>
    have := ih y
    simp only [List.intercalate, List.intersperse, List.flatMap_cons] at this ⊢
    simp [this]

theorem outputOf_emit_one (n : Nat) (a b c : Int) (post : List Int) (L : List (List Nat))
    (hL : ∀ s ∈ L, s.length = n) :
    outputOf (emit n [a, b, c] post 1 L) = List.intercalate [b, c] (L.map render) := by
  cases L with
  | nil => rfl
  | cons s L =>
    have hs := hL s (List.mem_cons_self _ _)
    have h0 := outputOf_emit_zero n a b c post L (fun t ht => hL t (List.mem_cons_of_mem _ ht))
    rw [List.map_cons, intercalate_cons]
    simp only [emit, outputOf, List.flatMap_cons] at h0 ⊢
    rw [bytesOf_leaf_first n a b c post s hs, h0]
    simp [List.flatMap_map]

theorem output_spec (n : Nat) (h : n ≤ 33) (tr : List Event) :
    outputOf (ft_print_combn tr n) =
      outputOf tr ++ List.intercalate [44, 32] ((incSeqs n 10).map render) ++ [10] := by
  have hw : ft_print_combn tr n =
      (r ⟨initBuf n, tr⟩ 0 (-1) 1).1.trace ++ [Event.write 1 [10, 0] 0 1] := rfl
  rw [hw, outputOf_append, ← outputOf_writesOf (r ⟨initBuf n, tr⟩ 0 (-1) 1).1.trace,
    root_spec n h tr, outputOf_append, outputOf_writesOf,
    outputOf_emit_one n _ _ _ _ _ (fun s hs => incSeqs_length_of_mem hs)]
  rfl


/-! ## The reference enumeration -/

theorem incSeqs_zero_mem (m : Nat) (s : List Nat) : s ∈ incSeqs 0 m ↔ s = [] := by
  cases m <;> simp [incSeqs]

theorem incSeqs_mem_iff (m : Nat) (hm : m ≤ 10) (k : Nat) (s : List Nat) :
    s ∈ incSeqs k m ↔
      s.length = k ∧ s.Pairwise (· < ·) ∧ ∀ d ∈ s, 10 - m ≤ d ∧ d ≤ 9 := by
  induction m generalizing k s with
  | zero =>
    cases k with
    | zero =>
      rw [incSeqs_zero_mem]
      constructor
      · rintro rfl
        simp
      · rintro ⟨h, _⟩
        exact List.length_eq_zero.mp h
    | succ k =>
      simp only [incSeqs, List.not_mem_nil, false_iff]
      rintro ⟨hl, _, hd⟩
      cases s with
      | nil => simp at hl
      | cons d t =>
        have := hd d (List.mem_cons_self _ _)
        omega
  | succ m ih =>
    cases k with
    | zero =>
      rw [incSeqs_zero_mem]
      constructor
      · rintro rfl
        simp
      · rintro ⟨h, _⟩
        exact List.length_eq_zero.mp h
    | succ k =>
      rw [incSeqs, List.mem_append, List.mem_map]
      constructor
      · rintro (⟨t, ht, rfl⟩ | h)
        · obtain ⟨hl, hp, hd⟩ := (ih (by omega) k t).mp ht
          refine ⟨by simp [hl], ?_, ?_⟩
          · rw [List.pairwise_cons]
            refine ⟨fun a ha => ?_, hp⟩
            have := hd a ha
            omega
          · intro d hdm
            rcases List.mem_cons.mp hdm with rfl | hdt
            · omega
            · have := hd d hdt
              omega
        · obtain ⟨hl, hp, hd⟩ := (ih (by omega) (k + 1) s).mp h
          refine ⟨hl, hp, fun d hdm => ?_⟩
          have := hd d hdm
          omega
      · rintro ⟨hl, hp, hd⟩
        cases s with
        | nil => simp at hl
        | cons d t =>
          rw [List.pairwise_cons] at hp
          have hd0 := hd d (List.mem_cons_self _ _)
          by_cases hdeq : d = 9 - m
          · left
            refine ⟨t, ?_, by rw [hdeq]⟩
            refine (ih (by omega) k t).mpr ⟨by simpa using hl, hp.2, fun a ha => ?_⟩
            have h1 := hp.1 a ha
            have h2 := hd a (List.mem_cons_of_mem _ ha)
            omega
          · right
            refine (ih (by omega) (k + 1) (d :: t)).mpr
              ⟨hl, List.pairwise_cons.mpr hp, fun a ha => ?_⟩
            have h2 := hd a ha
            rcases List.mem_cons.mp ha with rfl | hat
            · omega
            · have h1 := hp.1 a hat
              omega

theorem incSeqs_length (m k : Nat) : (incSeqs k m).length = Nat.choose m k := by
  induction m generalizing k with
  | zero =>
    cases k with
    | zero => rfl
    | succ k => rfl
  | succ m ih =>
    cases k with
    | zero => simp [incSeqs]
    | succ k =>
      rw [incSeqs, List.length_append, List.length_map, ih, ih, Nat.choose_succ_succ]

theorem lexLt_cons_same (a : Int) (s t : List Int) (h : lexLt s t) :
    lexLt (a :: s) (a :: t) := by
  simp [lexLt, h]

theorem lexLt_irrefl (s : List Int) : ¬ lexLt s s := by
  induction s with
  | nil => simp [lexLt]
  | cons a s ih => simp [lexLt, ih]

theorem incSeqs_head_ge {m k : Nat} (hm : m ≤ 10) {d : Nat} {t : List Nat}
    (h : d :: t ∈ incSeqs k m) : 10 - m ≤ d :=
  (((incSeqs_mem_iff m hm k (d :: t)).mp h).2.2 d (List.mem_cons_self _ _)).1

theorem incSeqs_sorted (m : Nat) (hm : m ≤ 10) (k : Nat) :
    List.Pairwise (fun s t => lexLt (render s) (render t)) (incSeqs k m) := by
  induction m generalizing k with
  | zero =>
    cases k with
    | zero => simp [incSeqs]
    | succ k => simp [incSeqs]
  | succ m ih =>
    cases k with
    | zero => simp [incSeqs]
    | succ k =>
      rw [incSeqs, List.pairwise_append]
      refine ⟨?_, ih (by omega) (k + 1), ?_⟩
      · rw [List.pairwise_map]
        refine (ih (by omega) k).imp ?_
        intro s t hst
        exact lexLt_cons_same _ _ _ hst
      · intro a ha b hb
        obtain ⟨t, _, rfl⟩ := List.mem_map.mp ha
        have hlb := (incSeqs_mem_iff m (by omega) (k + 1) b).mp hb
        cases b with
        | nil => simp at hlb
        | cons d u =>
          have := incSeqs_head_ge (by omega) hb
          simp only [render, List.map_cons, lexLt]
          left
          omega

theorem decVal_bound (a : List Int) (h : ∀ x ∈ a, 48 ≤ x ∧ x ≤ 57) :
    0 ≤ decVal a ∧ decVal a < 10 ^ a.length := by
  induction a with
  | nil => simp [decVal]
  | cons x t ih =>
    obtain ⟨h0, h1⟩ := ih (fun y hy => h y (List.mem_cons_of_mem _ hy))
    have hx := h x (List.mem_cons_self _ _)
    have hP : (0 : Int) < 10 ^ t.length := by positivity
    have hlo : 0 ≤ (x - 48) * 10 ^ t.length := mul_nonneg (by omega) hP.le
    have hhi : (x - 48) * 10 ^ t.length ≤ 9 * 10 ^ t.length :=
      mul_le_mul_of_nonneg_right (by omega) hP.le
    simp only [decVal, List.length_cons, pow_succ]
    constructor
    · omega
    · linarith

theorem decVal_lt_of_lexLt (a b : List Int) (hlen : a.length = b.length)
    (ha : ∀ x ∈ a, 48 ≤ x ∧ x ≤ 57) (hb : ∀ x ∈ b, 48 ≤ x ∧ x ≤ 57) (h : lexLt a b) :
    decVal a < decVal b := by
  induction a generalizing b with
  | nil =>
    cases b with
    | nil => simp [lexLt] at h
    | cons y t => simp at hlen
  | cons x s ih =>
    cases b with
    | nil => simp at hlen
    | cons y t =>
      have hl : s.length = t.length := by simpa using hlen
      have hs := decVal_bound s (fun z hz => ha z (List.mem_cons_of_mem _ hz))
      have ht := decVal_bound t (fun z hz => hb z (List.mem_cons_of_mem _ hz))
      have hP : (0 : Int) < 10 ^ t.length := by positivity
      simp only [decVal, hl]
      rw [hl] at hs
      simp only [lexLt] at h
      rcases h with hxy | ⟨rfl, hst⟩
      · have hstep : (x - 48 + 1) * 10 ^ t.length ≤ (y - 48) * 10 ^ t.length :=
          mul_le_mul_of_nonneg_right (by omega) hP.le
        have hexp : (x - 48 + 1) * 10 ^ t.length = (x - 48) * 10 ^ t.length + 10 ^ t.length := by
          ring
        linarith [hs.2, ht.1]
      · have := ih t hl (fun z hz => ha z (List.mem_cons_of_mem _ hz))
          (fun z hz => hb z (List.mem_cons_of_mem _ hz)) hst
        linarith

theorem render_digits (s : List Nat) (h : ∀ d ∈ s, d ≤ 9) :
    ∀ x ∈ render s, 48 ≤ x ∧ x ≤ 57 := by
  intro x hx
  obtain ⟨d, hd, rfl⟩ := List.mem_map.mp hx
  have := h d hd
  omega

theorem incSeqs_digit_le {m k : Nat} (hm : m ≤ 10) {s : List Nat} (h : s ∈ incSeqs k m) :
    ∀ d ∈ s, d ≤ 9 :=
  fun d hd => (((incSeqs_mem_iff m hm k s).mp h).2.2 d hd).2

theorem render_injective : Function.Injective render := by
  intro s t h
  simp only [render] at h
  refine List.map_injective_iff.mpr ?_ h
  intro a b hab
  simp only at hab
  omega

theorem incSeqs_ten_mem (n : Nat) (s : List Nat) :
    s ∈ incSeqs n 10 ↔ s.length = n ∧ s.Pairwise (· < ·) ∧ ∀ d ∈ s, d ≤ 9 := by
  rw [incSeqs_mem_iff 10 (le_refl 10) n s]
  constructor
  · rintro ⟨hl, hp, hd⟩
    exact ⟨hl, hp, fun d hdm => (hd d hdm).2⟩
  · rintro ⟨hl, hp, hd⟩
    exact ⟨hl, hp, fun d hdm => ⟨by omega, hd d hdm⟩⟩

theorem printed_sorted (n : Nat) (h : n ≤ 33) : List.Pairwise lexLt (printed n) := by
  rw [printed_eq n h, List.pairwise_map]
  exact incSeqs_sorted 10 (le_refl 10) n

theorem mem_emit {n : Int} {pre post : List Int} {f : Int} {L : List (List Nat)} {e : Event}
    (h : e ∈ emit n pre post f L) :
    ∃ g s, (g = 0 ∨ g = f) ∧ s ∈ L ∧ e = leafWrite n pre post g s := by
  induction L generalizing f with
  | nil => simp [emit] at h
  | cons s L ih =>
    rw [emit, List.mem_cons] at h
    rcases h with rfl | h
    · exact ⟨f, s, Or.inr rfl, List.mem_cons_self _ _, rfl⟩
    · obtain ⟨g, t, hg, ht, rfl⟩ := ih h
      refine ⟨g, t, Or.inl ?_, List.mem_cons_of_mem _ ht, rfl⟩
      rcases hg with hg | hg <;> exact hg

/-! ## The claims -/

/-- C1 (counterexample): the output of `ft_print_combn(1)` is not the ten lines
`"0\n1\n...9\n"` that the claim gives for `n = 1`. -/
theorem C1_ten_lines_refuted :
    outputOf (ft_print_combn [] 1) ≠ ascii "0\n1\n2\n3\n4\n5\n6\n7\n8\n9\n" := by
  have h : outputOf (ft_print_combn [] 1) = _ := output_spec 1 (by omega) []
  rw [h]
  decide

/-- C1 (amended): for `1 ≤ n ≤ 9` the bytes written by `ft_print_combn(n)` are the ASCII
digits of the strictly increasing length-`n` digit sequences, taken in ascending
lexicographic order, with the separator `", "` between consecutive sequences and one
`'\n'` after the last; `incSeqs n 10` is exactly the lexicographically sorted list of the
strictly increasing length-`n` sequences of digits `0..9`. For `n = 1` the output is
`"0, 1, 2, 3, 4, 5, 6, 7, 8, 9\n"`. -/
theorem C1_output_comma_separated (n : Nat) (h1 : 1 ≤ n) (h9 : n ≤ 9) :
    outputOf (ft_print_combn [] n) =
        List.intercalate (ascii ", ") ((incSeqs n 10).map render) ++ ascii "\n" ∧
      (∀ s, s ∈ incSeqs n 10 ↔ s.length = n ∧ s.Pairwise (· < ·) ∧ ∀ d ∈ s, d ≤ 9) ∧
      (incSeqs n 10).Pairwise (fun s t => lexLt (render s) (render t)) ∧
      outputOf (ft_print_combn [] 1) = ascii "0, 1, 2, 3, 4, 5, 6, 7, 8, 9\n" := by
  refine ⟨?_, incSeqs_ten_mem n, incSeqs_sorted 10 (le_refl 10) n, ?_⟩
  · rw [output_spec n (by omega) []]
    rfl
  · have h : outputOf (ft_print_combn [] 1) = _ := output_spec 1 (by omega) []
    rw [h]
    decide

/-- Witness for `C1_output_comma_separated` at `n = 2`. -/
theorem C1_output_comma_separated_witness :
    (1 ≤ 2 ∧ 2 ≤ 9) ∧
      outputOf (ft_print_combn [] (2 : Nat)) =
        List.intercalate (ascii ", ") ((incSeqs 2 10).map render) ++ ascii "\n" :=
  ⟨by decide, (C1_output_comma_separated 2 (by decide) (by decide)).1⟩

/-- C2: for `1 ≤ n ≤ 9` the printed combinations of `ft_print_combn(n)` (the bytes
`b[3..3+n)` at each base-case write, which that write emits as its last `n` bytes) contain
no duplicate, are exactly the `n`-element subsets of `{0,...,9}` rendered as ASCII digits in
ascending order, and there are `C(10,n)` of them. -/
theorem C2_printed_are_subsets (n : Nat) (h1 : 1 ≤ n) (h9 : n ≤ 9) :
    (printed n).Nodup ∧
      (∀ s, s ∈ printed n ↔
        ∃ S : Finset Nat, S ⊆ Finset.range 10 ∧ S.card = n ∧ s = render (S.sort (· ≤ ·))) ∧
      (printed n).length = Nat.choose 10 n ∧
      (∀ e ∈ writesOf (rTrace n), combOf n e <:+ bytesOf e) := by
  refine ⟨?_, ?_, ?_, ?_⟩
  · exact (printed_sorted n (by omega)).imp (fun {a b} hab heq => by
      subst heq
      exact lexLt_irrefl a hab)
  · intro s
    rw [printed_eq n (by omega), List.mem_map]
    constructor
    · rintro ⟨t, ht, rfl⟩
      obtain ⟨hl, hp, hd⟩ := (incSeqs_ten_mem n t).mp ht
      have hnd : t.Nodup := hp.imp (fun {a b} hab => Nat.ne_of_lt hab)
      have hsort : (t.toFinset).sort (· ≤ ·) = t :=
        (List.toFinset_sort (· ≤ ·) hnd).mpr (hp.imp (fun {a b} hab => Nat.le_of_lt hab))
      refine ⟨t.toFinset, ?_, ?_, by rw [hsort]⟩
      · intro d hdm
        have := hd d (List.mem_toFinset.mp hdm)
        exact Finset.mem_range.mpr (by omega)
      · rw [List.toFinset_card_of_nodup hnd, hl]
    · rintro ⟨S, hS, hc, rfl⟩
      refine ⟨S.sort (· ≤ ·), ?_, rfl⟩
      refine (incSeqs_ten_mem n _).mpr ⟨by rw [Finset.length_sort, hc], ?_, ?_⟩
      · exact Finset.sort_sorted_lt S
      · intro d hdm
        have := Finset.mem_range.mp (hS ((Finset.mem_sort _).mp hdm))
        omega
  · rw [printed_eq n (by omega), List.length_map, incSeqs_length]
  · intro e he
    rw [writesOf_rTrace n (by omega)] at he
    obtain ⟨g, s, hg, hs, rfl⟩ := mem_emit he
    have hl := incSeqs_length_of_mem hs
    rw [combOf_leafWrite n _ _ _ _ _ s hl]
    rcases hg with rfl | rfl
    · rw [bytesOf_leaf_later n _ _ _ _ s hl]
      exact List.suffix_append _ _
    · rw [bytesOf_leaf_first n _ _ _ _ s hl]

/-- Witness for `C2_printed_are_subsets` at `n = 3`. -/
theorem C2_printed_are_subsets_witness :
    (1 ≤ 3 ∧ 3 ≤ 9) ∧ (printed (3 : Nat)).Nodup ∧ (printed (3 : Nat)).length = Nat.choose 10 3 :=
  ⟨by decide, (C2_printed_are_subsets 3 (by decide) (by decide)).1,
    (C2_printed_are_subsets 3 (by decide) (by decide)).2.2.1⟩

theorem printed_digits (n : Nat) (h : n ≤ 33) {s : List Int} (hs : s ∈ printed n) :
    s.length = n ∧ ∀ b ∈ s, 48 ≤ b ∧ b ≤ 57 := by
  rw [printed_eq n h, List.mem_map] at hs
  obtain ⟨t, ht, rfl⟩ := hs
  exact ⟨by rw [render_length, incSeqs_length_of_mem ht],
    render_digits t (incSeqs_digit_le (le_refl 10) ht)⟩

/-- C3: for `1 ≤ n ≤ 9` every printed combination of `ft_print_combn(n)` is strictly greater
than the one printed before it, both in lexicographic order and as base-10 integers of
width `n`. -/
theorem C3_ascending_order (n : Nat) (h1 : 1 ≤ n) (h9 : n ≤ 9) :
    List.Chain' lexLt (printed n) ∧
      List.Chain' (fun a b => decVal a < decVal b) (printed n) := by
  have hp := printed_sorted n (by omega)
  refine ⟨hp.chain', List.Pairwise.chain' ?_⟩
  refine hp.imp_of_mem ?_
  intro a b ha hb hab
  have hda := printed_digits n (by omega) ha
  have hdb := printed_digits n (by omega) hb
  exact decVal_lt_of_lexLt a b (by rw [hda.1, hdb.1]) hda.2 hdb.2 hab

/-- Witness for `C3_ascending_order` at `n = 4`. -/
theorem C3_ascending_order_witness :
    (1 ≤ 4 ∧ 4 ≤ 9) ∧ List.Chain' lexLt (printed (4 : Nat)) ∧
      List.Chain' (fun a b => decVal a < decVal b) (printed (4 : Nat)) :=
  ⟨by decide, C3_ascending_order 4 (by decide) (by decide)⟩

/-- C5: for `1 ≤ n ≤ 9` the digit values of every printed combination of `ft_print_combn(n)`,
read left to right, are strictly increasing and each lies in `0..9`. -/
theorem C5_digits_increasing (n : Nat) (h1 : 1 ≤ n) (h9 : n ≤ 9) :
    ∀ s ∈ printed n,
      List.Chain' (· < ·) (s.map (fun b => b - 48)) ∧ ∀ b ∈ s, 0 ≤ b - 48 ∧ b - 48 ≤ 9 := by
  intro s hs
  have hd := (printed_digits n (by omega) hs).2
  rw [printed_eq n (by omega), List.mem_map] at hs
  obtain ⟨t, ht, rfl⟩ := hs
  obtain ⟨_, hp, _⟩ := (incSeqs_ten_mem n t).mp ht
  constructor
  · apply List.Pairwise.chain'
    simp only [render, List.map_map, List.pairwise_map]
    refine hp.imp ?_
    intro a b hab
    simp only [Function.comp]
    omega
  · intro b hb
    have := hd b hb
    omega

/-- Witness for `C5_digits_increasing` at `n = 5`. -/
theorem C5_digits_increasing_witness :
    (1 ≤ 5 ∧ 5 ≤ 9) ∧ ∀ s ∈ printed (5 : Nat),
      List.Chain' (· < ·) (s.map (fun b => b - 48)) ∧ ∀ b ∈ s, 0 ≤ b - 48 ∧ b - 48 ≤ 9 :=
  ⟨by decide, C5_digits_increasing 5 (by decide) (by decide)⟩

theorem linesGo_segment (cur X rest : List Int) (hX : (10 : Int) ∉ X) :
    linesGo cur (X ++ 10 :: rest) = (cur.reverse ++ X) :: linesGo [] rest := by
  induction X generalizing cur with
  | nil => simp [linesGo]
  | cons b X ih =>
    have hb : b ≠ 10 := fun hb => hX (by simp [hb])
    have hX2 : (10 : Int) ∉ X := fun hm => hX (List.mem_cons_of_mem _ hm)
    rw [List.cons_append, linesGo, if_neg hb, ih (b :: cur) hX2]
    simp

theorem linesOf_blocks (Xs : List (List Int)) (h : ∀ X ∈ Xs, (10 : Int) ∉ X) :
    linesOf (Xs.flatMap (fun X => X ++ [10])) = Xs := by
  induction Xs with
  | nil => rfl
  | cons X Xs ih =>
    have hX := h X (List.mem_cons_self _ _)
    have ih2 := ih (fun Y hY => h Y (List.mem_cons_of_mem _ hY))
    simp only [linesOf] at ih2 ⊢
    rw [List.flatMap_cons, List.append_assoc, List.singleton_append,
      linesGo_segment [] X _ hX, ih2]
    rfl

theorem mem_intercalate {sep : List Int} {L : List (List Int)} {x : Int}
    (h : x ∈ List.intercalate sep L) : x ∈ sep ∨ ∃ l ∈ L, x ∈ l := by
  cases L with
  | nil => simp [List.intercalate] at h
  | cons a L =>
    rw [intercalate_cons, List.mem_append, List.mem_flatMap] at h
    rcases h with h | ⟨l, hl, h⟩
    · exact Or.inr ⟨a, List.mem_cons_self _ _, h⟩
    · rcases List.mem_append.mp h with h | h
      · exact Or.inl h
      · exact Or.inr ⟨l, List.mem_cons_of_mem _ hl, h⟩

theorem body_no_newline (n : Nat) (h : n ≤ 33) :
    (10 : Int) ∉ List.intercalate (ascii ", ") (printed n) := by
  intro hm
  rcases mem_intercalate hm with h0 | ⟨l, hl, h0⟩
  · revert h0
    decide
  · have := (printed_digits n h hl).2 10 h0
    omega

theorem output_block (n : Nat) (h : n ≤ 33) (tr : List Event) :
    outputOf (ft_print_combn tr n) =
      outputOf tr ++ (List.intercalate (ascii ", ") (printed n) ++ [10]) := by
  rw [output_spec n h tr, printed_eq n h, List.append_assoc]
  rfl

theorem output_single (n : Nat) (h : n ≤ 33) :
    outputOf (ft_print_combn [] n) = List.intercalate (ascii ", ") (printed n) ++ [10] := by
  rw [output_block n h []]
  rfl

/-- C4 (counterexample): the output of `ft_print_combn(1)` has one line, not
`C(10,1) = 10` lines. -/
theorem C4_line_count_refuted :
    (linesOf (outputOf (ft_print_combn [] 1))).length = 1 ∧
      (linesOf (outputOf (ft_print_combn [] 1))).length ≠ Nat.choose 10 1 := by
  have h : outputOf (ft_print_combn [] 1) = _ := output_spec 1 (by omega) []
  rw [h]
  decide

/-- C4 (amended): for `1 ≤ n ≤ 9` the output of `ft_print_combn(n)` is a single line, whose
entries separated by `", "` are the printed combinations, and the number of these
combinations is `C(10,n)`, that is 10, 45, 120, 210, 252, 210, 120, 45, 10 for
`n = 1,...,9`. -/
theorem C4_combination_count (n : Nat) (h1 : 1 ≤ n) (h9 : n ≤ 9) :
    linesOf (outputOf (ft_print_combn [] n)) = [List.intercalate (ascii ", ") (printed n)] ∧
      (printed n).length = Nat.choose 10 n ∧
      Nat.choose 10 n = [10, 45, 120, 210, 252, 210, 120, 45, 10].getD (n - 1) 0 := by
  refine ⟨?_, ?_, ?_⟩
  · have hb := linesOf_blocks [List.intercalate (ascii ", ") (printed n)]
      (fun X hX => by
        rw [List.mem_singleton] at hX
        subst hX
        exact body_no_newline n (by omega))
    rw [output_single n (by omega)]
    simpa using hb
  · rw [printed_eq n (by omega), List.length_map, incSeqs_length]
  · interval_cases n <;> rfl

/-- Witness for `C4_combination_count` at `n = 5`. -/
theorem C4_combination_count_witness :
    (1 ≤ 5 ∧ 5 ≤ 9) ∧ (printed (5 : Nat)).length = Nat.choose 10 5 :=
  ⟨by decide, (C4_combination_count 5 (by decide) (by decide)).2.1⟩

/-- C6 (counterexample): the only line of the output of `ft_print_combn(1)` is
`"0, 1, 2, 3, 4, 5, 6, 7, 8, 9"`, which has 28 characters, commas and spaces among them:
not every line has exactly `n = 1` characters, all digits. -/
theorem C6_line_shape_refuted :
    linesOf (outputOf (ft_print_combn [] 1)) = [ascii "0, 1, 2, 3, 4, 5, 6, 7, 8, 9"] ∧
      ¬ ∀ l ∈ linesOf (outputOf (ft_print_combn [] 1)),
        l.length = 1 ∧ ∀ b ∈ l, 48 ≤ b ∧ b ≤ 57 := by
  have h : outputOf (ft_print_combn [] 1) = _ := output_spec 1 (by omega) []
  have hl : linesOf (outputOf (ft_print_combn [] 1)) =
      [ascii "0, 1, 2, 3, 4, 5, 6, 7, 8, 9"] := by
    rw [h]
    decide
  refine ⟨hl, fun hall => ?_⟩
  have h28 := (hall _ (by rw [hl]; exact List.mem_singleton_self _)).1
  revert h28
  decide

/-- C6 (amended): for `1 ≤ n ≤ 9` the output of `ft_print_combn(n)` is the printed
combinations joined by `", "` and followed by `'\n'`, and every printed combination has
exactly `n` characters, each an ASCII digit `'0'..'9'`. -/
theorem C6_combination_shape (n : Nat) (h1 : 1 ≤ n) (h9 : n ≤ 9) :
    outputOf (ft_print_combn [] n) =
        List.intercalate (ascii ", ") (printed n) ++ ascii "\n" ∧
      ∀ s ∈ printed n, s.length = n ∧ ∀ b ∈ s, 48 ≤ b ∧ b ≤ 57 :=
  ⟨output_single n (by omega), fun _ hs => printed_digits n (by omega) hs⟩

/-- Witness for `C6_combination_shape` at `n = 6`. -/
theorem C6_combination_shape_witness :
    (1 ≤ 6 ∧ 6 ≤ 9) ∧ ∀ s ∈ printed (6 : Nat), s.length = 6 ∧ ∀ b ∈ s, 48 ≤ b ∧ b ≤ 57 :=
  ⟨by decide, (C6_combination_shape 6 (by decide) (by decide)).2⟩

theorem mainLoop_iter (tr : List Event) (i j : Int) (hj : i + 1 = j) (h : j < 10) :
    mainLoop tr i = mainLoop (ft_print_combn tr j) j := by
  subst hj
  rw [mainLoop]
  simp [h]

theorem mainLoop_exit (tr : List Event) (i : Int) (h : ¬ i + 1 < 10) : mainLoop tr i = tr := by
  rw [mainLoop]
  simp [h]

theorem main_unfold :
    main = ft_print_combn (ft_print_combn (ft_print_combn (ft_print_combn (ft_print_combn
      (ft_print_combn (ft_print_combn (ft_print_combn (ft_print_combn [] 1) 2) 3) 4) 5) 6) 7)
      8) 9 := by
  rw [main, mainLoop_iter _ 0 1 (by norm_num) (by norm_num),
    mainLoop_iter _ 1 2 (by norm_num) (by norm_num),
    mainLoop_iter _ 2 3 (by norm_num) (by norm_num),
    mainLoop_iter _ 3 4 (by norm_num) (by norm_num),
    mainLoop_iter _ 4 5 (by norm_num) (by norm_num),
    mainLoop_iter _ 5 6 (by norm_num) (by norm_num),
    mainLoop_iter _ 6 7 (by norm_num) (by norm_num),
    mainLoop_iter _ 7 8 (by norm_num) (by norm_num),
    mainLoop_iter _ 8 9 (by norm_num) (by norm_num),
    mainLoop_exit _ 9 (by norm_num)]

theorem main_output_blocks :
    outputOf main =
      (List.range' 1 9).flatMap
        (fun (k : Nat) => List.intercalate (ascii ", ") (printed k) ++ [10]) := by
  have hb : ∀ (k : Nat) (j : Int), (k : Int) = j → k ≤ 33 → ∀ tr,
      outputOf (ft_print_combn tr j) =
        outputOf tr ++ (List.intercalate (ascii ", ") (printed k) ++ [10]) := by
    intro k j hkj hk tr
    subst hkj
    exact output_block k hk tr
  rw [main_unfold, hb 9 9 rfl (by omega), hb 8 8 rfl (by omega), hb 7 7 rfl (by omega),
    hb 6 6 rfl (by omega), hb 5 5 rfl (by omega), hb 4 4 rfl (by omega),
    hb 3 3 rfl (by omega), hb 2 2 rfl (by omega), hb 1 1 rfl (by omega)]
  simp [List.range', outputOf]

/-- C7: `main` calls `ft_print_combn(1)`, ..., `ft_print_combn(9)` once each, in this order,
and does nothing else; its output is the concatenation of the outputs of these nine calls,
so the block of `n = k` wholly precedes the block of `n = k + 1`. -/
theorem C7_main_runs_one_to_nine :
    main = List.foldl ft_print_combn [] [1, 2, 3, 4, 5, 6, 7, 8, 9] ∧
      outputOf main =
        (List.range' 1 9).flatMap (fun (k : Nat) => outputOf (ft_print_combn [] k)) := by
  constructor
  · rw [List.foldl_cons, List.foldl_cons, List.foldl_cons, List.foldl_cons, List.foldl_cons,
      List.foldl_cons, List.foldl_cons, List.foldl_cons, List.foldl_cons, List.foldl_nil]
    exact main_unfold
  · rw [main_output_blocks]
    have h : ∀ k ∈ List.range' 1 9,
        List.intercalate (ascii ", ") (printed (k : Nat)) ++ [10] =
          outputOf (ft_print_combn [] (k : Nat)) := by
      intro k hk
      rw [List.mem_range'_1] at hk
      rw [output_single k (by omega)]
    exact List.flatMap_congr h

theorem intercalate_cons_cons (sep x y : List Int) (ys : List (List Int)) :
    List.intercalate sep (x :: y :: ys) = x ++ sep ++ List.intercalate sep (y :: ys) := by
  rw [intercalate_cons, intercalate_cons, List.flatMap_cons]
  simp

theorem intercalate_getLast (sep : List Int) (L : List (List Int)) (last : List Int)
    (h : L.getLast? = some last) : ∃ front, List.intercalate sep L = front ++ last := by
  induction L with
  | nil => simp at h
  | cons x L ih =>
    cases L with
    | nil =>
      have hx : x = last := by simpa using h
      exact ⟨[], by simp [List.intercalate, hx]⟩
    | cons y ys =>
      rw [List.getLast?_cons_cons] at h
      obtain ⟨front, hf⟩ := ih h
      exact ⟨x ++ sep ++ front, by rw [intercalate_cons_cons, hf]; simp⟩

theorem printed_ne_nil (n : Nat) (h : n ≤ 10) : printed n ≠ [] := by
  rw [printed_eq n (by omega)]
  intro h0
  exact incSeqs_ne_nil h (List.map_eq_nil_iff.mp h0)

theorem body_ne_nil (n : Nat) (h1 : 1 ≤ n) (h : n ≤ 10) :
    List.intercalate (ascii ", ") (printed n) ≠ [] := by
  have hne := printed_ne_nil n h
  cases hp : printed n with
  | nil => exact absurd hp hne
  | cons x xs =>
    have hx := (printed_digits n (by omega) (by rw [hp]; exact List.mem_cons_self x xs)).1
    rw [intercalate_cons]
    intro h0
    have hx0 : x = [] := (List.append_eq_nil.mp h0).1
    rw [hx0] at hx
    simp at hx
    omega

theorem chain_no_newline (X : List Int) (h : (10 : Int) ∉ X) :
    List.Chain' (fun a b => ¬ (a = 10 ∧ b = 10)) X := by
  apply List.Pairwise.chain'
  rw [List.pairwise_iff_forall_sublist]
  intro a b hab
  rintro ⟨rfl, _⟩
  exact h (hab.subset (List.mem_cons_self _ _))

theorem no_blank_step (A X : List Int)
    (hA : A.head? ≠ some 10 ∧ List.Chain' (fun a b => ¬ (a = 10 ∧ b = 10)) A)
    (hX : X ≠ []) (h10 : (10 : Int) ∉ X) :
    (A ++ (X ++ [10])).head? ≠ some 10 ∧
      List.Chain' (fun a b => ¬ (a = 10 ∧ b = 10)) (A ++ (X ++ [10])) := by
  obtain ⟨x, t, rfl⟩ : ∃ x t, X = x :: t := by
    cases X with
    | nil => exact absurd rfl hX
    | cons x t => exact ⟨x, t, rfl⟩
  have hx : x ≠ 10 := fun hx => h10 (by simp [hx])
  have hXc : List.Chain' (fun a b => ¬ (a = 10 ∧ b = 10)) (x :: t ++ [10]) := by
    rw [List.chain'_append]
    refine ⟨chain_no_newline _ h10, List.chain'_singleton _, ?_⟩
    intro a ha b _
    rintro ⟨rfl, _⟩
    exact h10 (List.mem_of_mem_getLast? ha)
  constructor
  · cases A with
    | nil => simpa using hx
    | cons a A => simpa using hA.1
  · rw [List.chain'_append]
    refine ⟨hA.2, hXc, ?_⟩
    intro a _ b hb
    rintro ⟨_, rfl⟩
    simp at hb
    exact hx hb

theorem no_blank_blocks (Xs : List (List Int)) (h : ∀ X ∈ Xs, X ≠ [] ∧ (10 : Int) ∉ X) :
    (Xs.flatMap (fun X => X ++ [10])).head? ≠ some 10 ∧
      List.Chain' (fun a b => ¬ (a = 10 ∧ b = 10)) (Xs.flatMap (fun X => X ++ [10])) := by
  induction Xs using List.reverseRecOn with
  | nil => simp
  | append_singleton Xs X ih =>
    have hX := h X (by simp)
    have ih2 := ih (fun Y hY => h Y (by simp [hY]))
    rw [List.flatMap_append]
    simpa using no_blank_step _ X ih2 hX.1 hX.2

theorem main_output_bodies :
    outputOf main =
      ((List.range' 1 9).map
        (fun (k : Nat) => List.intercalate (ascii ", ") (printed k))).flatMap
        (fun X => X ++ [10]) := by
  rw [main_output_blocks, List.flatMap_map]

theorem main_bodies_ok :
    ∀ X ∈ (List.range' 1 9).map (fun (k : Nat) => List.intercalate (ascii ", ") (printed k)),
      X ≠ [] ∧ (10 : Int) ∉ X := by
  intro X hX
  obtain ⟨k, hk, rfl⟩ := List.mem_map.mp hX
  rw [List.mem_range'_1] at hk
  exact ⟨body_ne_nil k hk.1 (by omega), body_no_newline k (by omega)⟩

/-- C8: for `1 ≤ n ≤ 9` the output of `ft_print_combn(n)` ends with the digits of the last
printed combination followed by exactly one `'\n'`, the only newline of the block; the output
of `main` does not begin with `'\n'` and never contains two consecutive `'\n'` bytes. -/
theorem C8_no_blank_line (n : Nat) (h1 : 1 ≤ n) (h9 : n ≤ 9) :
    (∃ front last, (printed n).getLast? = some last ∧
        outputOf (ft_print_combn [] n) = front ++ last ++ ascii "\n" ∧
        (10 : Int) ∉ front ++ last) ∧
      (outputOf main).head? ≠ some 10 ∧ ¬ ([10, 10] <:+: outputOf main) := by
  refine ⟨?_, ?_⟩
  · have hne := printed_ne_nil n (by omega)
    have hl := List.getLast?_eq_getLast (printed n) hne
    obtain ⟨front, hf⟩ := intercalate_getLast (ascii ", ") (printed n) _ hl
    refine ⟨front, _, hl, ?_, ?_⟩
    · rw [output_single n (by omega), hf]
      rfl
    · rw [← hf]
      exact body_no_newline n (by omega)
  · have hb := no_blank_blocks _ main_bodies_ok
    rw [← main_output_bodies] at hb
    refine ⟨hb.1, fun hin => ?_⟩
    obtain ⟨p, q, hpq⟩ := hin
    have hc := hb.2
    rw [← hpq] at hc
    have hmid := (List.chain'_append.mp (List.chain'_append.mp hc).1).2.1
    simp at hmid

/-- Witness for `C8_no_blank_line` at `n = 7`. -/
theorem C8_no_blank_line_witness :
    (1 ≤ 7 ∧ 7 ≤ 9) ∧ ∃ front last, (printed (7 : Nat)).getLast? = some last ∧
      outputOf (ft_print_combn [] (7 : Nat)) = front ++ last ++ ascii "\n" ∧
      (10 : Int) ∉ front ++ last :=
  ⟨by decide, (C8_no_blank_line 7 (by decide) (by decide)).1⟩

/-- C9: for `1 ≤ n ≤ 9` the first printed combination of `ft_print_combn(n)` is the digits
`0,1,...,n-1` and the last is `10-n,...,9`; for `n = 2` the first three are `01`, `02`, `03`
and the last is `89`; for `n = 9` there are exactly 10 combinations, the first `012345678`
and the last `123456789`. -/
theorem C9_first_and_last (n : Nat) (h1 : 1 ≤ n) (h9 : n ≤ 9) :
    (printed n).head? = some (render (List.range n)) ∧
      (printed n).getLast? = some (render (List.range' (10 - n) n)) ∧
      (printed 2).take 3 = [ascii "01", ascii "02", ascii "03"] ∧
      (printed 2).getLast? = some (ascii "89") ∧
      (printed 9).length = 10 ∧
      (printed 9).head? = some (ascii "012345678") ∧
      (printed 9).getLast? = some (ascii "123456789") := by
  have h2 : printed 2 = _ := printed_eq 2 (by omega)
  have h9e : printed 9 = _ := printed_eq 9 (by omega)
  refine ⟨?_, ?_, ?_, ?_, ?_, ?_, ?_⟩
  · rw [printed_eq n (by omega)]
    interval_cases n <;> decide
  · rw [printed_eq n (by omega)]
    interval_cases n <;> decide
  · rw [h2]
    decide
  · rw [h2]
    decide
  · rw [h9e, List.length_map, incSeqs_length]
    rfl
  · rw [h9e]
    decide
  · rw [h9e]
    decide

/-- Witness for `C9_first_and_last` at `n = 3`. -/
theorem C9_first_and_last_witness :
    (1 ≤ 3 ∧ 3 ≤ 9) ∧ (printed (3 : Nat)).head? = some (render (List.range 3)) ∧
      (printed (3 : Nat)).getLast? = some (render (List.range' 7 3)) :=
  ⟨by decide, (C9_first_and_last 3 (by decide) (by decide)).1,
    (C9_first_and_last 3 (by decide) (by decide)).2.1⟩

theorem emit_length (n : Int) (pre post : List Int) (f : Int) (L : List (List Nat)) :
    (emit n pre post f L).length = L.length := by
  induction L generalizing f with
  | nil => rfl
  | cons s L ih => simp [emit, ih]

theorem writes_block (n : Nat) (h : n ≤ 33) (tr : List Event) :
    (writesOf (ft_print_combn tr n)).length = (writesOf tr).length + (Nat.choose 10 n + 1) := by
  have hw : ft_print_combn tr n =
      (r ⟨initBuf n, tr⟩ 0 (-1) 1).1.trace ++ [Event.write 1 [10, 0] 0 1] := rfl
  rw [hw, writesOf_append, root_spec n h tr, List.length_append, List.length_append,
    emit_length, incSeqs_length]
  simp [writesOf, isWrite]
  omega

theorem main_lines :
    linesOf (outputOf main) =
      (List.range' 1 9).map (fun (k : Nat) => List.intercalate (ascii ", ") (printed k)) := by
  rw [main_output_bodies]
  exact linesOf_blocks _ (fun X hX => (main_bodies_ok X hX).2)

theorem sum_choose_ten : (∑ n in Finset.Icc 1 9, Nat.choose 10 n) = 1022 := by
  decide

/-- C10 (counterexample): the output of `main` has 9 lines and the sum of `C(10,n)` over
`n = 1..9` is 1022, so the number of lines is not that sum and the sum is not 1013. -/
theorem C10_total_lines_refuted :
    (linesOf (outputOf main)).length = 9 ∧
      (∑ n in Finset.Icc 1 9, Nat.choose 10 n) = 1022 ∧
      ¬ ((linesOf (outputOf main)).length = ∑ n in Finset.Icc 1 9, Nat.choose 10 n ∧
        (∑ n in Finset.Icc 1 9, Nat.choose 10 n) = 1013) := by
  have h9 : (linesOf (outputOf main)).length = 9 := by
    rw [main_lines, List.length_map, List.length_range']
  refine ⟨h9, sum_choose_ten, ?_⟩
  rintro ⟨_, h⟩
  rw [sum_choose_ten] at h
  omega

/-- C10 (amended): over the whole run of `main` the total number of combinations printed is
the sum of `C(10,n)` over `n = 1..9`, which is 1022; they are printed on 9 lines, the line of
`n` holding the printed combinations of `ft_print_combn(n)` separated by `", "`, and `main`
makes 1022 + 9 calls of `write`. -/
theorem C10_total_combinations :
    (∑ n in Finset.Icc 1 9, (printed (n : Nat)).length) = ∑ n in Finset.Icc 1 9, Nat.choose 10 n ∧
      (∑ n in Finset.Icc 1 9, Nat.choose 10 n) = 1022 ∧
      linesOf (outputOf main) =
        (List.range' 1 9).map (fun (k : Nat) => List.intercalate (ascii ", ") (printed k)) ∧
      (writesOf main).length = 1022 + 9 := by
  refine ⟨?_, sum_choose_ten, main_lines, ?_⟩
  · refine Finset.sum_congr rfl (fun n hn => ?_)
    rw [Finset.mem_Icc] at hn
    rw [printed_eq n (by omega), List.length_map, incSeqs_length]
  · have hb : ∀ (k : Nat) (j : Int), (k : Int) = j → k ≤ 33 → ∀ tr,
        (writesOf (ft_print_combn tr j)).length =
          (writesOf tr).length + (Nat.choose 10 k + 1) := by
      intro k j hkj hk tr
      subst hkj
      exact writes_block k hk tr
    rw [main_unfold, hb 9 9 rfl (by omega), hb 8 8 rfl (by omega), hb 7 7 rfl (by omega),
      hb 6 6 rfl (by omega), hb 5 5 rfl (by omega), hb 4 4 rfl (by omega),
      hb 3 3 rfl (by omega), hb 2 2 rfl (by omega), hb 1 1 rfl (by omega)]
    rfl

/-- C17: the constant 2108416 is `0x202C00`; for `0 ≤ n ≤ 127` the value `n | 2108416` is
`n + 2108416`, its little-endian bytes are `n, 0x2C, 0x20, 0x00`, and the initial buffer of
36 bytes has `b[0] = n`, `b[1] = ','`, `b[2] = ' '` and `b[3..35]` all zero. -/
theorem C17_header_constant (n : Nat) (h : n ≤ 127) :
    (2108416 : Int) = 0x202C00 ∧
      Int.lor n 2108416 = (n : Int) + 2108416 ∧
      [((n : Int) + 2108416) % 256, ((n : Int) + 2108416) / 256 % 256,
        ((n : Int) + 2108416) / 65536 % 256, ((n : Int) + 2108416) / 16777216 % 256] =
        [(n : Int), 0x2C, 0x20, 0x00] ∧
      ascii ", " = [0x2C, 0x20] ∧
      (initBuf n).length = 36 ∧
      rd (initBuf n) 0 = n ∧ rd (initBuf n) 1 = 44 ∧ rd (initBuf n) 2 = 32 ∧
      ∀ j, 3 ≤ j → j ≤ 35 → rd (initBuf n) j = 0 := by
  have hlor : Int.lor (n : Int) 2108416 = ((n ||| 2108416 : Nat) : Int) := rfl
  have hb := initBuf_eq n h
  refine ⟨by norm_num, ?_, ?_, by decide, ?_, ?_, ?_, ?_, ?_⟩
  · rw [hlor, lor_small n (by omega)]
    push_cast
    rfl
  · have e0 : ((n : Int) + 2108416) % 256 = n := by omega
    have e1 : ((n : Int) + 2108416) / 256 % 256 = 44 := by omega
    have e2 : ((n : Int) + 2108416) / 65536 % 256 = 32 := by omega
    have e3 : ((n : Int) + 2108416) / 16777216 % 256 = 0 := by omega
    rw [e0, e1, e2, e3]
  · rw [hb]
    simp
  · rw [hb]
    rfl
  · rw [hb]
    rfl
  · rw [hb]
    rfl
  · intro j h3 h35
    rw [hb]
    obtain ⟨t, rfl⟩ : ∃ t, j = t + 3 := ⟨j - 3, by omega⟩
    simp only [rd, List.cons_append, List.nil_append, List.getD_cons_succ]
    rw [List.getD_eq_getElem?_getD, List.getElem?_replicate]
    split <;> rfl

/-- Witness for `C17_header_constant` at `n = 5`. -/
theorem C17_header_constant_witness :
    5 ≤ 127 ∧ Int.lor (5 : Nat) 2108416 = ((5 : Nat) : Int) + 2108416 ∧
      rd (initBuf (5 : Nat)) 0 = (5 : Nat) :=
  ⟨by decide, (C17_header_constant 5 (by decide)).2.1,
    (C17_header_constant 5 (by decide)).2.2.2.2.2.1⟩

theorem emit_zero_eq_map (n : Int) (pre post : List Int) (L : List (List Nat)) :
    emit n pre post 0 L = L.map (leafWrite n pre post 0) := by
  induction L with
  | nil => rfl
  | cons s L ih => simp [emit, ih]

theorem leafWrite_one (n : Int) (pre post : List Int) (s : List Nat) :
    leafWrite n pre post 1 s = Event.write 1 (pre ++ render s ++ post) 3 n := by
  simp [leafWrite]

theorem leafWrite_zero (n : Int) (pre post : List Int) (s : List Nat) :
    leafWrite n pre post 0 s = Event.write 1 (pre ++ render s ++ post) 1 (n + 2) := by
  simp [leafWrite]

theorem flatMap_sep_length (sep : List Int) (n : Nat) (xs : List (List Int))
    (h : ∀ x ∈ xs, x.length = n) :
    (xs.flatMap (fun s => sep ++ s)).length = xs.length * (sep.length + n) := by
  induction xs with
  | nil => simp
  | cons x xs ih =>
    have hx := h x (List.mem_cons_self _ _)
    have ih2 := ih (fun y hy => h y (List.mem_cons_of_mem _ hy))
    rw [List.flatMap_cons, List.length_append, List.length_append, ih2, hx, List.length_cons]
    ring

theorem intercalate_length (sep : List Int) (n : Nat) (L : List (List Int))
    (h : ∀ x ∈ L, x.length = n) (hne : L ≠ []) :
    (List.intercalate sep L).length + sep.length = L.length * (sep.length + n) := by
  cases L with
  | nil => exact absurd rfl hne
  | cons x xs =>
    have hx := h x (List.mem_cons_self _ _)
    rw [intercalate_cons, List.length_append,
      flatMap_sep_length sep n xs (fun y hy => h y (List.mem_cons_of_mem _ hy)), hx,
      List.length_cons]
    ring

theorem choose_ten_pos (n : Nat) (h : n ≤ 10) : 0 < Nat.choose 10 n :=
  Nat.choose_pos h

/-- C12: for `1 ≤ n ≤ 9` the output of `ft_print_combn(n)` is the lexicographically ordered
list of the strictly increasing `n`-digit combinations joined by `", "` and followed by one
`'\n'`. The first base-case write is `write(1, b + 3, n)` and emits the `n` digits only,
every later one is `write(1, b + 1, n + 2)` and emits `", "` and the `n` digits, no base-case
write emits a newline, and the last call is `write(1, "\n", 1)`. The output has
`(n + 2) * C(10,n) - 1` bytes and one line; for `n = 1` it is
`"0, 1, 2, 3, 4, 5, 6, 7, 8, 9\n"`. -/
theorem C12_exact_bytes (n : Nat) (h1 : 1 ≤ n) (h9 : n ≤ 9) :
    outputOf (ft_print_combn [] n) =
        List.intercalate (ascii ", ") (printed n) ++ ascii "\n" ∧
      List.Pairwise lexLt (printed n) ∧
      (∀ s, s ∈ printed n ↔
        ∃ t : List Nat, t.length = n ∧ t.Pairwise (· < ·) ∧ (∀ d ∈ t, d ≤ 9) ∧ s = render t) ∧
      (∃ e0 rest, writesOf (rTrace n) = e0 :: rest ∧
        (∃ src, e0 = Event.write 1 src 3 n) ∧ bytesOf e0 = combOf n e0 ∧
        ∀ e ∈ rest, (∃ src, e = Event.write 1 src 1 ((n : Int) + 2)) ∧
          bytesOf e = ascii ", " ++ combOf n e) ∧
      (∀ e ∈ writesOf (rTrace n), (10 : Int) ∉ bytesOf e) ∧
      writesOf (ft_print_combn [] n) = writesOf (rTrace n) ++ [Event.write 1 [10, 0] 0 1] ∧
      (outputOf (ft_print_combn [] n)).length = (n + 2) * Nat.choose 10 n - 1 ∧
      (linesOf (outputOf (ft_print_combn [] n))).length = 1 ∧
      outputOf (ft_print_combn [] 1) = ascii "0, 1, 2, 3, 4, 5, 6, 7, 8, 9\n" := by
  have hn33 : n ≤ 33 := by omega
  have hw := writesOf_rTrace n hn33
  have hlenmem : ∀ s ∈ incSeqs n 10, s.length = n := fun s hs => incSeqs_length_of_mem hs
  refine ⟨output_single n hn33, printed_sorted n hn33, ?_, ?_, ?_, ?_, ?_, ?_, ?_⟩
  · intro s
    rw [printed_eq n hn33, List.mem_map]
    constructor
    · rintro ⟨t, ht, rfl⟩
      obtain ⟨hl, hp, hd⟩ := (incSeqs_ten_mem n t).mp ht
      exact ⟨t, hl, hp, hd, rfl⟩
    · rintro ⟨t, hl, hp, hd, rfl⟩
      exact ⟨t, (incSeqs_ten_mem n t).mpr ⟨hl, hp, hd⟩, rfl⟩
  · cases hL : incSeqs n 10 with
    | nil => exact absurd hL (incSeqs_ne_nil (by omega))
    | cons s0 rest =>
      rw [hL, emit, emit_zero_eq_map] at hw
      have hs0 : s0.length = n := hlenmem s0 (by rw [hL]; exact List.mem_cons_self _ _)
      refine ⟨_, _, hw, ⟨_, leafWrite_one _ _ _ _⟩, ?_, ?_⟩
      · rw [bytesOf_leaf_first n _ _ _ _ s0 hs0, combOf_leafWrite n _ _ _ _ _ s0 hs0]
      · intro e he
        obtain ⟨s, hs, rfl⟩ := List.mem_map.mp he
        have hsl : s.length = n := hlenmem s (by rw [hL]; exact List.mem_cons_of_mem _ hs)
        refine ⟨⟨_, leafWrite_zero _ _ _ _⟩, ?_⟩
        rw [bytesOf_leaf_later n _ _ _ _ s hsl, combOf_leafWrite n _ _ _ _ _ s hsl]
        rfl
  · intro e he h10
    rw [hw] at he
    obtain ⟨g, s, hg, hs, rfl⟩ := mem_emit he
    have hsl := hlenmem s hs
    have hdig := render_digits s (incSeqs_digit_le (le_refl 10) hs)
    rcases hg with rfl | rfl
    · rw [bytesOf_leaf_later n _ _ _ _ s hsl] at h10
      simp only [List.cons_append, List.nil_append, List.mem_cons] at h10
      rcases h10 with h10 | h10 | h10
      · omega
      · omega
      · have := hdig 10 h10
        omega
    · rw [bytesOf_leaf_first n _ _ _ _ s hsl] at h10
      have := hdig 10 h10
      omega
  · have hfp : ft_print_combn [] n = rTrace n ++ [Event.write 1 [10, 0] 0 1] := rfl
    rw [hfp, writesOf_append]
    simp [writesOf, isWrite]
  · have hlen := intercalate_length (ascii ", ") n (printed n)
      (fun x hx => (printed_digits n hn33 hx).1) (printed_ne_nil n (by omega))
    have hpl : (printed n).length = Nat.choose 10 n := by
      rw [printed_eq n hn33, List.length_map, incSeqs_length]
    have hsep : (ascii ", ").length = 2 := by decide
    rw [hpl, hsep] at hlen
    rw [output_single n hn33, List.length_append, List.length_singleton]
    have hpos := choose_ten_pos n (by omega)
    have hmul : (n + 2) * Nat.choose 10 n = Nat.choose 10 n * (2 + n) := by ring
    rw [hmul]
    omega
  · have hb := linesOf_blocks [List.intercalate (ascii ", ") (printed n)]
      (fun X hX => by
        rw [List.mem_singleton] at hX
        subst hX
        exact body_no_newline n hn33)
    rw [output_single n hn33]
    have hb2 : linesOf (List.intercalate (ascii ", ") (printed n) ++ [10]) =
        [List.intercalate (ascii ", ") (printed n)] := by simpa using hb
    rw [hb2]
    rfl
  · have h : outputOf (ft_print_combn [] 1) = _ := output_spec 1 (by omega) []
    rw [h]
    decide

/-- Witness for `C12_exact_bytes` at `n = 2`. -/
theorem C12_exact_bytes_witness :
    (1 ≤ 2 ∧ 2 ≤ 9) ∧
      (outputOf (ft_print_combn [] (2 : Nat))).length = (2 + 2) * Nat.choose 10 2 - 1 :=
  ⟨by decide, (C12_exact_bytes 2 (by decide) (by decide)).2.2.2.2.2.2.1⟩

/-! ## Instrumented semantics, frame and call log -/

theorem rLoopI_exit (ω : Nat → Int) (st : Mem) (i c first : Int)
    (h : ¬ (c + 1 ≤ 9 ∧ i ≠ rd st.buf 0)) :
    rLoopI ω st i c first = (st, first, []) := by
  rw [rLoopI]
  simp [h]

theorem rLoopI_iter (ω : Nat → Int) (st : Mem) (i c first : Int)
    (h : c + 1 ≤ 9 ∧ i ≠ rd st.buf 0) :
    rLoopI ω st i c first =
      ((rLoopI ω (rI ω (storeByte st (i + 3) (c + 1 + 48)) (i + 1) (c + 1)
          (if first = 1 then 1 else 0)).1 i (c + 1) (first - 1)).1,
        (rLoopI ω (rI ω (storeByte st (i + 3) (c + 1 + 48)) (i + 1) (c + 1)
          (if first = 1 then 1 else 0)).1 i (c + 1) (first - 1)).2.1,
        (rI ω (storeByte st (i + 3) (c + 1 + 48)) (i + 1) (c + 1)
          (if first = 1 then 1 else 0)).2.2 ++
        (rLoopI ω (rI ω (storeByte st (i + 3) (c + 1 + 48)) (i + 1) (c + 1)
          (if first = 1 then 1 else 0)).1 i (c + 1) (first - 1)).2.2) := by
  rw [rLoopI]
  simp [h]

theorem rI_mem (ω : Nat → Int) (st : Mem) (i c first : Int) :
    (rI ω st i c first).1 =
      if i = rd (rLoopI ω st i c first).1.buf 0 then
        (writeO ω (rLoopI ω st i c first).1 1 (rLoopI ω st i c first).1.buf
          (1 + 2 * (rLoopI ω st i c first).2.1)
          (rd (rLoopI ω st i c first).1.buf 0 +
            2 * (if (rLoopI ω st i c first).2.1 = 0 then 1 else 0))).1
      else (rLoopI ω st i c first).1 := by
  rw [rI]
  split <;> rfl

theorem rI_calls (ω : Nat → Int) (st : Mem) (i c first : Int) :
    (rI ω st i c first).2.2 = ⟨i, c, first⟩ :: (rLoopI ω st i c first).2.2 := by
  rw [rI]
  split <;> rfl

theorem r_mem (st : Mem) (i c first : Int) :
    (r st i c first).1 =
      if i = rd (rLoop st i c first).1.buf 0 then
        (write (rLoop st i c first).1 1 (rLoop st i c first).1.buf
          (1 + 2 * (rLoop st i c first).2)
          (rd (rLoop st i c first).1.buf 0 +
            2 * (if (rLoop st i c first).2 = 0 then 1 else 0))).1
      else (rLoop st i c first).1 := by
  rw [r]
  split <;> rfl

theorem writeO_mem (ω : Nat → Int) (st : Mem) (fd : Int) (src : List Int) (off len : Int) :
    (writeO ω st fd src off len).1 = (write st fd src off len).1 := rfl

/-- Agreement of the instrumented loop and call with `rLoop` and `r`, for `c = 9 - m`. -/
theorem instr_agree (ω : Nat → Int) (m : Nat) :
    (∀ st i first, (rLoopI ω st i (9 - m) first).1 = (rLoop st i (9 - m) first).1 ∧
        (rLoopI ω st i (9 - m) first).2.1 = (rLoop st i (9 - m) first).2) ∧
      (∀ st i first, (rI ω st i (9 - m) first).1 = (r st i (9 - m) first).1) := by
  have hcall : ∀ c : Int,
      (∀ st i first, (rLoopI ω st i c first).1 = (rLoop st i c first).1 ∧
        (rLoopI ω st i c first).2.1 = (rLoop st i c first).2) →
      ∀ st i first, (rI ω st i c first).1 = (r st i c first).1 := by
    intro c hl st i first
    rw [rI_mem, r_mem, (hl st i first).1, (hl st i first).2, writeO_mem]
  induction m with
  | zero =>
    have hl : ∀ st i first, (rLoopI ω st i (9 - ((0 : Nat) : Int)) first).1 =
        (rLoop st i (9 - ((0 : Nat) : Int)) first).1 ∧
        (rLoopI ω st i (9 - ((0 : Nat) : Int)) first).2.1 =
          (rLoop st i (9 - ((0 : Nat) : Int)) first).2 := by
      intro st i first
      rw [rLoopI_exit _ _ _ _ _ (by simp), rLoop_exit _ _ _ _ (by simp)]
      exact ⟨rfl, rfl⟩
    exact ⟨hl, hcall _ hl⟩
  | succ m ih =>
    have hc : (9 : Int) - ((m + 1 : Nat) : Int) + 1 = 9 - (m : Int) := by push_cast; ring
    have hl : ∀ st i first, (rLoopI ω st i (9 - ((m + 1 : Nat) : Int)) first).1 =
        (rLoop st i (9 - ((m + 1 : Nat) : Int)) first).1 ∧
        (rLoopI ω st i (9 - ((m + 1 : Nat) : Int)) first).2.1 =
          (rLoop st i (9 - ((m + 1 : Nat) : Int)) first).2 := by
      intro st i first
      by_cases hg : (9 : Int) - ((m + 1 : Nat) : Int) + 1 ≤ 9 ∧ i ≠ rd st.buf 0
      · rw [rLoopI_iter _ _ _ _ _ hg, rLoop_iter _ _ _ _ hg, hc, ih.2]
        exact ih.1 _ _ _
      · rw [rLoopI_exit _ _ _ _ _ hg, rLoop_exit _ _ _ _ hg]
        exact ⟨rfl, rfl⟩
    exact ⟨hl, hcall _ hl⟩


theorem rd_set (buf : List Int) (k : Nat) (v : Int) (hk : k ≠ 0) :
    rd (buf.set k v) 0 = rd buf 0 := by
  cases buf with
  | nil => rfl
  | cons a t =>
    cases k with
    | zero => exact absurd rfl hk
    | succ k => rfl

theorem storesIn_nil (lo hi1 hi2 : Int) : StoresIn lo hi1 hi2 [] := by
  intro idx val h
  simp at h

theorem call_frame_of_loop (m : Nat) (hA : LoopFrame m) : CallFrame m := by
  intro st i first h0 hin
  obtain ⟨new, htr, hrd, hlen, hst, hnw⟩ := hA st i first h0 hin
  rw [r_mem]
  by_cases hi : i = rd (rLoop st i (9 - m) first).1.buf 0
  · rw [if_pos hi]
    refine ⟨new ++ [Event.write 1 (rLoop st i (9 - m) first).1.buf
      (1 + 2 * (rLoop st i (9 - m) first).2)
      (rd (rLoop st i (9 - m) first).1.buf 0 +
        2 * (if (rLoop st i (9 - m) first).2 = 0 then 1 else 0))], ?_, hrd, hlen, ?_, ?_⟩
    · simp only [write, htr, List.append_assoc]
    · intro idx val hmem
      rcases List.mem_append.mp hmem with h | h
      · exact hst idx val h
      · simp at h
    · intro hlt
      rw [hrd] at hi
      omega
  · rw [if_neg hi]
    exact ⟨new, htr, hrd, hlen, hst, hnw⟩

theorem loop_frame_zero : LoopFrame 0 := by
  intro st i first h0 hin
  rw [rLoop_exit _ _ _ _ (by simp)]
  exact ⟨[], by simp, rfl, rfl, storesIn_nil _ _ _, fun _ => rfl⟩

theorem loop_frame_succ (m : Nat) (hm : m + 1 ≤ 10) (hA : LoopFrame m) (hB : CallFrame m) :
    LoopFrame (m + 1) := by
  intro st i first h0 hin
  have hc : (9 : Int) - ((m + 1 : Nat) : Int) + 1 = 9 - (m : Int) := by push_cast; ring
  by_cases hg : (9 : Int) - ((m + 1 : Nat) : Int) + 1 ≤ 9 ∧ i ≠ rd st.buf 0
  · rw [rLoop_iter _ _ _ _ hg, hc]
    have hk : (i + 3).toNat ≠ 0 := by omega
    have hrd1 : rd (storeByte st (i + 3) (9 - (m : Int) + 48)).buf 0 = rd st.buf 0 :=
      rd_set _ _ _ hk
    have hlen1 : (storeByte st (i + 3) (9 - (m : Int) + 48)).buf.length = st.buf.length := by
      simp [storeByte]
    obtain ⟨new1, htr1, hrdc, hlenc, hst1, hnw1⟩ :=
      hB (storeByte st (i + 3) (9 - (m : Int) + 48)) (i + 1) (if first = 1 then 1 else 0)
        (by omega) (by rw [hrd1]; omega)
    obtain ⟨new2, htr2, hrd2, hlen2, hst2, hnw2⟩ :=
      hA (r (storeByte st (i + 3) (9 - (m : Int) + 48)) (i + 1) (9 - (m : Int))
        (if first = 1 then 1 else 0)).1 i (first - 1) h0 (by rw [hrdc, hrd1]; exact hin)
    rw [hrd1] at hrdc hst1 hnw1
    rw [hrdc] at hrd2 hst2 hnw2
    refine ⟨[Event.store (i + 3) (9 - (m : Int) + 48)] ++ new1 ++ new2, ?_, hrd2, ?_, ?_, ?_⟩
    · rw [htr2, htr1]
      simp [storeByte]
    · rw [hlen2, hlenc, hlen1]
    · intro idx val hmem
      rcases List.mem_append.mp hmem with h | h
      · rcases List.mem_append.mp h with h | h
        · simp only [List.mem_singleton, Event.store.injEq] at h
          obtain ⟨rfl, rfl⟩ := h
          push_cast
          omega
        · have := hst1 idx val h
          push_cast
          omega
      · have := hst2 idx val h
        push_cast
        omega
    · intro hlt
      push_cast at hlt
      rw [writesOf_append, writesOf_append, hnw1 (by omega), hnw2 (by omega)]
      simp [writesOf, isWrite]
  · rw [rLoop_exit _ _ _ _ hg]
    exact ⟨[], by simp, rfl, rfl, storesIn_nil _ _ _, fun _ => rfl⟩

theorem frame_spec (m : Nat) (hm : m ≤ 10) : LoopFrame m ∧ CallFrame m := by
  induction m with
  | zero => exact ⟨loop_frame_zero, call_frame_of_loop 0 loop_frame_zero⟩
  | succ m ih =>
    have h := ih (by omega)
    have hl := loop_frame_succ m hm h.1 h.2
    exact ⟨hl, call_frame_of_loop (m + 1) hl⟩


theorem loop_calls_zero : LoopCalls 0 := by
  intro ω st i first h0 hin
  rw [rLoopI_exit _ _ _ _ _ (by simp)]
  simp

theorem loop_calls_succ (m : Nat) (hm : m + 1 ≤ 10) (hA : LoopCalls m) :
    LoopCalls (m + 1) := by
  intro ω st i first h0 hin
  have hc : (9 : Int) - ((m + 1 : Nat) : Int) + 1 = 9 - (m : Int) := by push_cast; ring
  by_cases hg : (9 : Int) - ((m + 1 : Nat) : Int) + 1 ≤ 9 ∧ i ≠ rd st.buf 0
  · rw [rLoopI_iter _ _ _ _ _ hg, hc]
    have hk : (i + 3).toNat ≠ 0 := by omega
    have hrd1 : rd (storeByte st (i + 3) (9 - (m : Int) + 48)).buf 0 = rd st.buf 0 :=
      rd_set _ _ _ hk
    obtain ⟨_, _, hrdc, _, _, _⟩ := (frame_spec m (by omega)).2
      (storeByte st (i + 3) (9 - (m : Int) + 48)) (i + 1) (if first = 1 then 1 else 0)
      (by omega) (by rw [hrd1]; omega)
    rw [← (instr_agree ω m).2, hrd1] at hrdc
    obtain ⟨hq1, hl1⟩ := hA ω (storeByte st (i + 3) (9 - (m : Int) + 48)) (i + 1)
      (if first = 1 then 1 else 0) (by omega) (by rw [hrd1]; omega)
    obtain ⟨hq2, hl2⟩ := hA ω (rI ω (storeByte st (i + 3) (9 - (m : Int) + 48)) (i + 1)
      (9 - (m : Int)) (if first = 1 then 1 else 0)).1 i (first - 1) h0
      (by rw [hrdc]; exact hin)
    rw [hrd1] at hq1
    rw [hrdc] at hq2
    simp only
    rw [rI_calls]
    constructor
    · intro q hq
      rcases List.mem_append.mp hq with h | h
      · rcases List.mem_cons.mp h with rfl | h
        · refine ⟨?_, ?_, ?_, ?_, ?_⟩
          · show (9 : Int) - ((m + 1 : Nat) : Int) < 9 - (m : Int)
            push_cast
            omega
          · show (9 : Int) - (m : Int) ≤ 9
            omega
          · show i < i + 1
            omega
          · show i + 1 ≤ rd st.buf 0
            omega
          · show (if first = 1 then (1 : Int) else 0) = 0 ∨
              (if first = 1 then (1 : Int) else 0) = 1
            split
            · exact Or.inr rfl
            · exact Or.inl rfl
        · have := hq1 q h
          refine ⟨by push_cast; omega, this.2.1, by omega, this.2.2.2.1, this.2.2.2.2⟩
      · have := hq2 q h
        exact ⟨by push_cast; omega, this.2.1, this.2.2.1, this.2.2.2.1, this.2.2.2.2⟩
    · rw [List.length_append, List.length_cons, pow_succ]
      omega
  · rw [rLoopI_exit _ _ _ _ _ hg]
    simp
    exact Nat.one_le_two_pow

theorem loop_calls_spec (m : Nat) (hm : m ≤ 10) : LoopCalls m := by
  induction m with
  | zero => exact loop_calls_zero
  | succ m ih => exact loop_calls_succ m hm (ih (by omega))

theorem initBuf_rd_zero (n : Nat) (h : n ≤ 127) : rd (initBuf n) 0 = n := by
  rw [initBuf_eq n h]
  rfl

theorem root_c : (9 : Int) - ((10 : Nat) : Int) = -1 := by norm_num

theorem rI_root_mem (ω : Nat → Int) (st : Mem) (i first : Int) :
    (rI ω st i (-1) first).1 = (r st i (-1) first).1 := by
  have h := (instr_agree ω 10).2 st i first
  rw [root_c] at h
  exact h

theorem ft_print_combnO_eq (ω : Nat → Int) (tr : List Event) (n : Int) :
    ft_print_combnO ω tr n = ft_print_combn tr n := by
  rw [ft_print_combnO, ft_print_combn, rI_root_mem, writeO_mem]

/-- C11 (counterexample): when every call of `write` fails (returns `-1`),
`ft_print_combn(1)` still attempts 11 calls of `write`: it does not stop at the first
failure. -/
theorem C11_failure_not_fatal :
    (writesOf (ft_print_combnO (fun _ => -1) [] 1)).length = 11 ∧
      ¬ (writesOf (ft_print_combnO (fun _ => -1) [] 1)).length ≤ 1 := by
  have h : (writesOf (ft_print_combnO (fun _ => -1) [] 1)).length = 11 := by
    rw [ft_print_combnO_eq]
    have hb : (writesOf (ft_print_combn [] 1)).length = _ := writes_block 1 (by omega) []
    rw [hb]
    rfl
  exact ⟨h, by rw [h]; omega⟩

/-- C11 (amended): with the results of `write` given by any `ω` (failures included), `r` and
`ft_print_combn` do exactly the same stores and attempt exactly the same calls of `write`, in
the same order, as when every `write` succeeds: the results are discarded, and after a failed
`write` every remaining call is still attempted. -/
theorem C11_write_results_ignored (ω : Nat → Int) (tr : List Event) (n : Int) :
    ft_print_combnO ω tr n = ft_print_combn tr n ∧
      (rI ω ⟨initBuf n, tr⟩ 0 (-1) 1).1 = (r ⟨initBuf n, tr⟩ 0 (-1) 1).1 :=
  ⟨ft_print_combnO_eq ω tr n, rI_root_mem ω _ 0 1⟩

theorem callsOf_eq (ω : Nat → Int) (n : Int) :
    callsOf ω n = ⟨0, -1, 1⟩ :: (rLoopI ω ⟨initBuf n, []⟩ 0 (-1) 1).2.2 := by
  rw [callsOf, rI_calls]

theorem calls_within (ω : Nat → Int) (st : Mem) (i c first : Int) (h0 : 0 ≤ i)
    (hin : i ≤ rd st.buf 0) (hc1 : -1 ≤ c) (hc9 : c ≤ 9) :
    (∀ q ∈ (rLoopI ω st i c first).2.2,
      c < q.c ∧ q.c ≤ 9 ∧ i < q.i ∧ q.i ≤ rd st.buf 0 ∧ (q.first = 0 ∨ q.first = 1)) ∧
      (rLoopI ω st i c first).2.2.length + 1 ≤ 2 ^ (9 - c).toNat := by
  have hm : (9 : Int) - (((9 - c).toNat : Nat) : Int) = c := by omega
  have h := loop_calls_spec (9 - c).toNat (by omega) ω st i first h0 hin
  rw [hm] at h
  exact h

/-- C14: for `1 ≤ n ≤ 9` the root call `r(b, 0, -1, 1)` of `ft_print_combn(n)` terminates:
`r` is a total function, defined by recursion on the measure `10 - c`, and its run makes at
most `2 ^ 10` calls of `r`. Every call has `-1 ≤ c ≤ 9` and depth `0 ≤ i ≤ n ≤ 9`, and every
call made inside a call `r(b, i, c, first)` receives a strictly larger `c`, at most 9 (so
`9 - c` decreases), and a larger depth. -/
theorem C14_terminates_bounded_depth (ω : Nat → Int) (n : Nat) (h1 : 1 ≤ n) (h9 : n ≤ 9) :
    (rI ω ⟨initBuf n, []⟩ 0 (-1) 1).1 = (r ⟨initBuf n, []⟩ 0 (-1) 1).1 ∧
      (callsOf ω n).length ≤ 2 ^ 10 ∧
      (∀ q ∈ callsOf ω n,
        0 ≤ q.i ∧ q.i ≤ (n : Int) ∧ q.i ≤ 9 ∧ -1 ≤ q.c ∧ q.c ≤ 9) ∧
      (∀ (st : Mem) (i c first : Int), 0 ≤ i → i ≤ rd st.buf 0 → -1 ≤ c → c ≤ 9 →
        ∀ q ∈ (rI ω st i c first).2.2.tail,
          c < q.c ∧ q.c ≤ 9 ∧ (9 - q.c).toNat < (9 - c).toNat ∧ i < q.i) := by
  have hrd := initBuf_rd_zero n (by omega)
  have hroot := calls_within ω ⟨initBuf n, []⟩ 0 (-1) 1 (le_refl 0)
    (by show (0 : Int) ≤ rd (initBuf n) 0; rw [hrd]; omega) (le_refl _) (by norm_num)
  refine ⟨rI_root_mem ω _ 0 1, ?_, ?_, ?_⟩
  · rw [callsOf_eq, List.length_cons]
    exact hroot.2
  · intro q hq
    rw [callsOf_eq] at hq
    rcases List.mem_cons.mp hq with rfl | hq
    · refine ⟨le_refl _, ?_, ?_, le_refl _, ?_⟩
      · show (0 : Int) ≤ n
        omega
      · show (0 : Int) ≤ 9
        norm_num
      · show (-1 : Int) ≤ 9
        norm_num
    · have := hroot.1 q hq
      have hqn : q.i ≤ (n : Int) := by
        have h4 := this.2.2.2.1
        change q.i ≤ rd (initBuf n) 0 at h4
        rw [hrd] at h4
        exact h4
      exact ⟨by omega, hqn, by omega, by omega, this.2.1⟩
  · intro st i c first h0 hin hc1 hc9 q hq
    rw [rI_calls, List.tail_cons] at hq
    have := (calls_within ω st i c first h0 hin hc1 hc9).1 q hq
    exact ⟨this.1, this.2.1, by omega, this.2.2.1⟩

/-- Witness for `C14_terminates_bounded_depth` at `n = 3` with every `write` succeeding
with result 1. -/
theorem C14_terminates_bounded_depth_witness :
    (1 ≤ 3 ∧ 3 ≤ 9) ∧ (callsOf (fun _ => 1) (3 : Nat)).length ≤ 2 ^ 10 ∧
      ∀ q ∈ callsOf (fun _ => 1) (3 : Nat),
        0 ≤ q.i ∧ q.i ≤ ((3 : Nat) : Int) ∧ q.i ≤ 9 ∧ -1 ≤ q.c ∧ q.c ≤ 9 :=
  ⟨by decide, (C14_terminates_bounded_depth (fun _ => 1) 3 (by decide) (by decide)).2.1,
    (C14_terminates_bounded_depth (fun _ => 1) 3 (by decide) (by decide)).2.2.1⟩

theorem initBuf_length (n : Nat) (h : n ≤ 127) : (initBuf n).length = 36 := by
  rw [initBuf_eq n h]
  simp

theorem rTrace_frame (n : Nat) (h : n ≤ 127) :
    StoresIn 3 ((n : Int) + 2) 12 (rTrace n) ∧
      ((10 : Int) < n → writesOf (rTrace n) = []) ∧
      (r ⟨initBuf n, []⟩ 0 (-1) 1).1.buf.length = 36 ∧
      rd (r ⟨initBuf n, []⟩ 0 (-1) 1).1.buf 0 = n := by
  have hrd := initBuf_rd_zero n h
  obtain ⟨new, htr, hrd2, hlen, hst, hnw⟩ := (frame_spec 10 (le_refl 10)).2
    ⟨initBuf n, []⟩ 0 1 (le_refl 0) (by show (0 : Int) ≤ rd (initBuf n) 0; rw [hrd]; omega)
  rw [root_c] at htr hrd2 hlen
  have hnew : rTrace n = new := by
    rw [rTrace, htr]
    rfl
  change StoresIn (0 + 3) (rd (initBuf n) 0 + 2) (0 + 2 + ((10 : Nat) : Int)) new at hst
  change ((10 : Nat) : Int) < rd (initBuf n) 0 - 0 → writesOf new = [] at hnw
  change rd _ 0 = rd (initBuf n) 0 at hrd2
  change _ = (initBuf n).length at hlen
  rw [hrd] at hst hnw hrd2
  rw [initBuf_length n h] at hlen
  rw [hnew]
  refine ⟨?_, ?_, hlen, hrd2⟩
  · intro idx val hmem
    have := hst idx val hmem
    push_cast at this
    omega
  · intro hlt
    exact hnw (by push_cast; omega)

theorem root_buf (n : Nat) (h : n ≤ 33) :
    (r ⟨initBuf n, []⟩ 0 (-1) 1).1.buf.take 3 = [(n : Int), 44, 32] := by
  have hsplit : (List.replicate 33 (0 : Int)) =
      List.replicate n 0 ++ List.replicate (33 - n) 0 := by
    rw [List.append_replicate_replicate]
    congr 1
    omega
  rw [initBuf_eq n (by omega), hsplit, ← List.append_assoc]
  obtain ⟨mid, _, hbuf, _⟩ := (loop_call_spec 10 (le_refl 10)).2 n 0 [(n : Int), 44, 32]
    (List.replicate n 0) (List.replicate (33 - n) 0) [] 1 rfl (by simp [rd]) (by simp)
    (Or.inr rfl)
  rw [root_c] at hbuf
  have hbuf2 : (r ⟨[(n : Int), 44, 32] ++ List.replicate n 0 ++ List.replicate (33 - n) 0, []⟩
      0 (-1) 1).1.buf = [(n : Int), 44, 32] ++ mid ++ List.replicate (33 - n) 0 := by
    simpa using hbuf
  rw [hbuf2]
  rfl

theorem mem_writesOf {e : Event} {tr : List Event} (h : e ∈ tr) (hw : isWrite e = true) :
    e ∈ writesOf tr :=
  List.mem_filter.mpr ⟨h, hw⟩

theorem ft_print_combn_eq_rTrace (n : Int) :
    ft_print_combn [] n = rTrace n ++ [Event.write 1 [10, 0] 0 1] := rfl

theorem output_of_no_writes (n : Int) (h : writesOf (rTrace n) = []) :
    outputOf (ft_print_combn [] n) = ascii "\n" := by
  rw [ft_print_combn_eq_rTrace, outputOf_append, ← outputOf_writesOf (rTrace n), h]
  rfl

/-- C16: outside `1..9` the output is still defined. `ft_print_combn(0)` makes one
zero-length base-case write at the root and writes exactly `"\n"`; `ft_print_combn(10)`
writes exactly `"0123456789\n"`; for `11 ≤ n ≤ 127` no strictly increasing sequence of `n`
digits exists, `r` makes no call of `write` and `ft_print_combn(n)` writes exactly `"\n"`.
In all these cases every store index is at most 12, inside the 36-byte buffer. -/
theorem C16_outside_range (n : Nat) (h11 : 11 ≤ n) (h127 : n ≤ 127) :
    outputOf (ft_print_combn [] 0) = ascii "\n" ∧
      writesOf (rTrace 0) = [Event.write 1 (initBuf 0) 3 0] ∧
      outputOf (ft_print_combn [] 10) = ascii "0123456789\n" ∧
      outputOf (ft_print_combn [] n) = ascii "\n" ∧
      writesOf (rTrace n) = [] ∧
      (∀ s : List Nat, ¬ (s.length = n ∧ s.Pairwise (· < ·) ∧ ∀ d ∈ s, d ≤ 9)) ∧
      (∀ k : Nat, k = 0 ∨ k = 10 ∨ k = n → ∀ idx val, Event.store idx val ∈ rTrace k →
        3 ≤ idx ∧ idx ≤ 12 ∧ idx < 36) := by
  have hnw : writesOf (rTrace n) = [] := (rTrace_frame n h127).2.1 (by omega)
  refine ⟨?_, ?_, ?_, output_of_no_writes n hnw, hnw, ?_, ?_⟩
  · have h : outputOf (ft_print_combn [] 0) = _ := output_spec 0 (by omega) []
    rw [h]
    decide
  · have h : writesOf (rTrace 0) = _ := writesOf_rTrace 0 (by omega)
    rw [h]
    decide
  · have h : outputOf (ft_print_combn [] 10) = _ := output_spec 10 (by omega) []
    rw [h]
    decide
  · intro s hs
    have hmem := (incSeqs_ten_mem n s).mpr hs
    rw [incSeqs_eq_nil (show 10 < n by omega)] at hmem
    simp at hmem
  · intro k hk idx val hmem
    have hk127 : k ≤ 127 := by omega
    have := (rTrace_frame k hk127).1 idx val hmem
    omega

/-- Witness for `C16_outside_range` at `n = 11`. -/
theorem C16_outside_range_witness :
    (11 ≤ 11 ∧ 11 ≤ 127) ∧ outputOf (ft_print_combn [] (11 : Nat)) = ascii "\n" ∧
      writesOf (rTrace (11 : Nat)) = [] :=
  ⟨by decide, (C16_outside_range 11 (by decide) (by decide)).2.2.2.1,
    (C16_outside_range 11 (by decide) (by decide)).2.2.2.2.1⟩

/-! ## The bytes emitted by an arbitrary call with flag 0 or 1 -/

theorem lexLt_append_left (p s t : List Int) (h : lexLt s t) : lexLt (p ++ s) (p ++ t) := by
  induction p with
  | nil => exact h
  | cons a p ih => exact lexLt_cons_same a _ _ ih

theorem call_writes (n i : Nat) (c first : Int) (b : List Int) (tr : List Event)
    (hi : i ≤ n) (hc1 : -1 ≤ c) (hc9 : c ≤ 9) (hlen : n + 3 ≤ b.length)
    (hb0 : rd b 0 = (n : Int)) (hf : first = 0 ∨ first = 1) :
    writesOf (r ⟨b, tr⟩ i c first).1.trace =
      writesOf tr ++
        emit n (b.take (i + 3)) (b.drop (n + 3)) first (incSeqs (n - i) (9 - c).toNat) := by
  have hm : (9 : Int) - (((9 - c).toNat : Nat) : Int) = c := by omega
  have hsplit : b = b.take (i + 3) ++ (b.drop (i + 3)).take (n - i) ++ b.drop (n + 3) := by
    have h1 : (b.drop (i + 3)).drop (n - i) = b.drop (n + 3) := by
      rw [List.drop_drop]
      congr 1
      omega
    rw [List.append_assoc, ← h1, List.take_append_drop, List.take_append_drop]
  have hpre : (b.take (i + 3)).length = i + 3 := by
    rw [List.length_take]
    omega
  have hmid : ((b.drop (i + 3)).take (n - i)).length = n - i := by
    rw [List.length_take, List.length_drop]
    omega
  have hrd : rd (b.take (i + 3)) 0 = ((i + (n - i) : Nat) : Int) := by
    have h2 : rd b 0 = rd (b.take (i + 3)) 0 := by
      conv_lhs => rw [hsplit, List.append_assoc]
      exact rd_append_left _ _ (by omega)
    rw [← h2, hb0]
    congr 1
    omega
  obtain ⟨_, _, _, htr⟩ := (loop_call_spec (9 - c).toNat (by omega)).2 (n - i) i
    (b.take (i + 3)) ((b.drop (i + 3)).take (n - i)) (b.drop (n + 3)) tr first hpre hrd hmid hf
  rw [hm, ← hsplit] at htr
  have hin : ((i + (n - i) : Nat) : Int) = (n : Int) := by
    congr 1
    omega
  rw [hin] at htr
  exact htr

theorem bytesOf_leaf_first_gen (n : Nat) (a0 a1 a2 : Int) (p post : List Int) (s : List Nat)
    (hs : p.length + s.length = n) :
    bytesOf (leafWrite n (a0 :: a1 :: a2 :: p) post 1 s) = p ++ render s := by
  have h3 : ((1 : Int) + 2 * 1).toNat = 3 := by decide
  have hn : ((n : Int) + 2 * (if (1 : Int) = 0 then 1 else 0)).toNat = n := by simp
  have hl : (p ++ render s).length = n := by rw [List.length_append, render_length, hs]
  rw [leafWrite, bytesOf, h3, hn]
  simp only [List.cons_append, List.drop_succ_cons, List.drop_zero]
  rw [List.take_append_of_le_length (by rw [hl])]
  rw [List.take_of_length_le (by rw [hl])]

theorem bytesOf_leaf_later_gen (n : Nat) (a0 a1 a2 : Int) (p post : List Int) (s : List Nat)
    (hs : p.length + s.length = n) :
    bytesOf (leafWrite n (a0 :: a1 :: a2 :: p) post 0 s) = [a1, a2] ++ (p ++ render s) := by
  have h1 : ((1 : Int) + 2 * 0).toNat = 1 := by decide
  have hn : ((n : Int) + 2 * (if (0 : Int) = 0 then 1 else 0)).toNat = n + 2 := by
    simp
    omega
  have hl : (p ++ render s).length = n := by rw [List.length_append, render_length, hs]
  rw [leafWrite, bytesOf, h1, hn]
  simp only [List.cons_append, List.nil_append, List.drop_succ_cons, List.drop_zero,
    List.take_succ_cons]
  rw [List.take_append_of_le_length (by rw [hl])]
  rw [List.take_of_length_le (by rw [hl])]

theorem combOf_leafWrite_gen (n : Nat) (a0 a1 a2 : Int) (p post : List Int) (f : Int)
    (s : List Nat) (hs : p.length + s.length = n) :
    combOf n (leafWrite n (a0 :: a1 :: a2 :: p) post f s) = p ++ render s := by
  have hl : (p ++ render s).length = n := by rw [List.length_append, render_length, hs]
  simp only [combOf, leafWrite, List.cons_append, List.drop_succ_cons, List.drop_zero,
    Int.toNat_ofNat]
  rw [List.take_append_of_le_length (by rw [hl])]
  rw [List.take_of_length_le (by rw [hl])]

theorem map_combOf_emit_gen (n : Nat) (a0 a1 a2 : Int) (p post : List Int) (f : Int)
    (L : List (List Nat)) (hL : ∀ s ∈ L, p.length + s.length = n) :
    (emit n (a0 :: a1 :: a2 :: p) post f L).map (combOf n) =
      L.map (fun s => p ++ render s) := by
  induction L generalizing f with
  | nil => rfl
  | cons s L ih =>
    simp only [emit, List.map_cons]
    rw [combOf_leafWrite_gen n a0 a1 a2 p post f s (hL s (List.mem_cons_self _ _)),
      ih 0 (fun t ht => hL t (List.mem_cons_of_mem _ ht))]

theorem outputOf_emit_zero_gen (n : Nat) (a0 a1 a2 : Int) (p post : List Int)
    (L : List (List Nat)) (hL : ∀ s ∈ L, p.length + s.length = n) :
    outputOf (emit n (a0 :: a1 :: a2 :: p) post 0 L) =
      (L.map (fun s => p ++ render s)).flatMap (fun x => [a1, a2] ++ x) := by
  induction L with
  | nil => rfl
  | cons s L ih =>
    have hs := hL s (List.mem_cons_self _ _)
    have ih2 := ih (fun t ht => hL t (List.mem_cons_of_mem _ ht))
    simp only [emit, outputOf, List.flatMap_cons, List.map_cons] at ih2 ⊢
    rw [bytesOf_leaf_later_gen n a0 a1 a2 p post s hs, ih2]

theorem outputOf_emit_one_gen (n : Nat) (a0 a1 a2 : Int) (p post : List Int)
    (L : List (List Nat)) (hL : ∀ s ∈ L, p.length + s.length = n) :
    outputOf (emit n (a0 :: a1 :: a2 :: p) post 1 L) =
      List.intercalate [a1, a2] (L.map (fun s => p ++ render s)) := by
  cases L with
  | nil => rfl
  | cons s L =>
    have hs := hL s (List.mem_cons_self _ _)
    have h0 := outputOf_emit_zero_gen n a0 a1 a2 p post L
      (fun t ht => hL t (List.mem_cons_of_mem _ ht))
    rw [List.map_cons, intercalate_cons]
    simp only [emit, outputOf, List.flatMap_cons] at h0 ⊢
    rw [bytesOf_leaf_first_gen n a0 a1 a2 p post s hs, h0]

theorem bytesOf_mem_emit_gen (n : Nat) (a0 a1 a2 : Int) (p post : List Int) (f : Int)
    (hf : f = 0 ∨ f = 1) (L : List (List Nat)) (hL : ∀ s ∈ L, p.length + s.length = n)
    (e : Event) (he : e ∈ emit n (a0 :: a1 :: a2 :: p) post f L) :
    bytesOf e = combOf n e ∨ bytesOf e = [a1, a2] ++ combOf n e := by
  obtain ⟨g, s, hg, hs, rfl⟩ := mem_emit he
  have hsl := hL s hs
  rw [combOf_leafWrite_gen n a0 a1 a2 p post g s hsl]
  have hg01 : g = 0 ∨ g = 1 := by
    rcases hg with h | h
    · exact Or.inl h
    · rw [h]
      exact hf
  rcases hg01 with rfl | rfl
  · exact Or.inr (bytesOf_leaf_later_gen n a0 a1 a2 p post s hsl)
  · exact Or.inl (bytesOf_leaf_first_gen n a0 a1 a2 p post s hsl)

theorem leaf_call_any_flag (st : Mem) (i c first : Int) (h : i = rd st.buf 0) :
    (r st i c first).1.trace =
      st.trace ++ [Event.write 1 st.buf (1 + 2 * first)
        (rd st.buf 0 + 2 * (if first = 0 then 1 else 0))] := by
  have hexit : rLoop st i c first = (st, first) :=
    rLoop_exit _ _ _ _ (fun hg => hg.2 h)
  rw [r_leaf _ _ _ _ (by rw [hexit]; exact h), hexit]
  rfl

/-- C13 (counterexample): with `n = 2`, `i = 2`, `c = 1`, `b[0] = 2`, the prefix `"01"` in
`b[3..5)` and the flag `first = 5`, the call `r(b, 2, 1, 5)` makes the call
`write(1, b + 11, 2)` and emits the two zero bytes `b[11..13)`, not the combination
`"01"`. -/
theorem C13_flag_five_refuted :
    rd ([2, 44, 32, 48, 49] ++ List.replicate 31 (0 : Int)) 0 = 2 ∧
      ([2, 44, 32, 48, 49] ++ List.replicate 31 (0 : Int)).length = 36 ∧
      (([2, 44, 32, 48, 49] ++ List.replicate 31 (0 : Int)).drop 3).take 2 = ascii "01" ∧
      outputOf (r ⟨[2, 44, 32, 48, 49] ++ List.replicate 31 (0 : Int), []⟩ 2 1 5).1.trace =
        [0, 0] ∧
      outputOf (r ⟨[2, 44, 32, 48, 49] ++ List.replicate 31 (0 : Int), []⟩ 2 1 5).1.trace ≠
        ascii "01" := by
  have h := leaf_call_any_flag ⟨[2, 44, 32, 48, 49] ++ List.replicate 31 (0 : Int), []⟩ 2 1 5
    (by decide)
  rw [h]
  decide

/-- C13 (amended): for every `n` (in particular `1 ≤ n ≤ 9`), depth `0 ≤ i ≤ n`,
`-1 ≤ c ≤ 9`, flag `first` equal to 0 or 1 and buffer `b` of at least `n + 3` bytes (in
particular the 36-byte buffer) with `b[0] = n`, the base-case writes of the call
`r(b, i, c, first)` emit, in ascending lexicographic order, the prefix `b[3..3+i)` followed
by each strictly increasing sequence of `n - i` digits from `c+1..9`: each write emits its
combination as its last `n` bytes, preceded by the two bytes `b[1], b[2]` except in the
first write when `first = 1`. There are `C(9 - c, n - i)` of them: `C(10, n)` for the root
call, exactly one when `i = n`, and none when fewer than `n - i` digits greater than `c`
remain. -/
theorem C13_call_emits_subtree (n i : Nat) (c first : Int) (b : List Int)
    (hi : i ≤ n) (hc1 : -1 ≤ c) (hc9 : c ≤ 9)
    (hlen : n + 3 ≤ b.length) (hb0 : rd b 0 = (n : Int)) (hf : first = 0 ∨ first = 1) :
    (writesOf (r ⟨b, []⟩ i c first).1.trace).map (combOf n) =
        (incSeqs (n - i) (9 - c).toNat).map (fun s => (b.drop 3).take i ++ render s) ∧
      (∀ e ∈ writesOf (r ⟨b, []⟩ i c first).1.trace,
        bytesOf e = combOf n e ∨ bytesOf e = (b.drop 1).take 2 ++ combOf n e) ∧
      (first = 1 → outputOf (r ⟨b, []⟩ i c first).1.trace =
        List.intercalate ((b.drop 1).take 2)
          ((incSeqs (n - i) (9 - c).toNat).map (fun s => (b.drop 3).take i ++ render s))) ∧
      (first = 0 → outputOf (r ⟨b, []⟩ i c first).1.trace =
        ((incSeqs (n - i) (9 - c).toNat).map
          (fun s => (b.drop 3).take i ++ render s)).flatMap
          (fun x => (b.drop 1).take 2 ++ x)) ∧
      (∀ s, s ∈ incSeqs (n - i) (9 - c).toNat ↔
        s.length = n - i ∧ s.Pairwise (· < ·) ∧ ∀ d ∈ s, c + 1 ≤ (d : Int) ∧ d ≤ 9) ∧
      List.Pairwise lexLt
        ((incSeqs (n - i) (9 - c).toNat).map (fun s => (b.drop 3).take i ++ render s)) ∧
      (writesOf (r ⟨b, []⟩ i c first).1.trace).length = Nat.choose (9 - c).toNat (n - i) ∧
      (i = 0 → c = -1 →
        (writesOf (r ⟨b, []⟩ i c first).1.trace).length = Nat.choose 10 n) ∧
      (i = n → (writesOf (r ⟨b, []⟩ i c first).1.trace).map (combOf n) =
        [(b.drop 3).take n]) ∧
      ((9 - c).toNat < n - i → writesOf (r ⟨b, []⟩ i c first).1.trace = [] ∧
        outputOf (r ⟨b, []⟩ i c first).1.trace = []) := by
  have hm10 : (9 - c).toNat ≤ 10 := by omega
  have hW := call_writes n i c first b [] hi hc1 hc9 hlen hb0 hf
  have hW2 : writesOf (r ⟨b, []⟩ i c first).1.trace =
      emit n (b.take (i + 3)) (b.drop (n + 3)) first (incSeqs (n - i) (9 - c).toNat) := by
    rw [hW]
    rfl
  obtain ⟨a0, a1, a2, rest, rfl⟩ : ∃ a0 a1 a2 rest, b = a0 :: a1 :: a2 :: rest := by
    match b, hlen with
    | a0 :: a1 :: a2 :: rest, _ => exact ⟨a0, a1, a2, rest, rfl⟩
    | [], h => simp at h
    | [_], h => simp at h
    | [_, _], h => simp at h
  have hrest : n ≤ rest.length := by
    simp only [List.length_cons] at hlen
    omega
  have htake : (a0 :: a1 :: a2 :: rest).take (i + 3) = a0 :: a1 :: a2 :: rest.take i := by
    simp [List.take_succ_cons]
  have hd3 : (a0 :: a1 :: a2 :: rest).drop 3 = rest := rfl
  have hd1 : ((a0 :: a1 :: a2 :: rest).drop 1).take 2 = [a1, a2] := rfl
  rw [htake] at hW2
  rw [hd3, hd1]
  have hpl : (rest.take i).length = i := by
    rw [List.length_take]
    omega
  have hL : ∀ s ∈ incSeqs (n - i) (9 - c).toNat, (rest.take i).length + s.length = n := by
    intro s hs
    rw [hpl, incSeqs_length_of_mem hs]
    omega
  have hO : outputOf (r ⟨a0 :: a1 :: a2 :: rest, []⟩ i c first).1.trace =
      outputOf (emit n (a0 :: a1 :: a2 :: rest.take i) ((a0 :: a1 :: a2 :: rest).drop (n + 3))
        first (incSeqs (n - i) (9 - c).toNat)) := by
    rw [← outputOf_writesOf, hW2]
  have hC : (writesOf (r ⟨a0 :: a1 :: a2 :: rest, []⟩ i c first).1.trace).map (combOf n) =
      (incSeqs (n - i) (9 - c).toNat).map (fun s => rest.take i ++ render s) := by
    rw [hW2]
    exact map_combOf_emit_gen n a0 a1 a2 _ _ first _ hL
  have hlenW : (writesOf (r ⟨a0 :: a1 :: a2 :: rest, []⟩ i c first).1.trace).length =
      Nat.choose (9 - c).toNat (n - i) := by
    rw [hW2, emit_length, incSeqs_length]
  refine ⟨hC, ?_, ?_, ?_, ?_, ?_, hlenW, ?_, ?_, ?_⟩
  · intro e he
    rw [hW2] at he
    exact bytesOf_mem_emit_gen n a0 a1 a2 _ _ first hf _ hL e he
  · intro h1
    rw [hO, h1]
    exact outputOf_emit_one_gen n a0 a1 a2 _ _ _ hL
  · intro h0
    rw [hO, h0]
    exact outputOf_emit_zero_gen n a0 a1 a2 _ _ _ hL
  · intro s
    rw [incSeqs_mem_iff _ hm10]
    constructor
    · rintro ⟨hl, hp, hd⟩
      refine ⟨hl, hp, fun d hdm => ?_⟩
      have := hd d hdm
      omega
    · rintro ⟨hl, hp, hd⟩
      refine ⟨hl, hp, fun d hdm => ?_⟩
      have := hd d hdm
      omega
  · rw [List.pairwise_map]
    exact (incSeqs_sorted _ hm10 _).imp (fun {s t} hst => lexLt_append_left _ _ _ hst)
  · intro hi0 hcm
    rw [hlenW, hi0, hcm]
    rfl
  · intro hin
    rw [hC, hin, Nat.sub_self]
    cases (9 - c).toNat <;> simp [incSeqs, render]
  · intro hlt
    have hnil := incSeqs_eq_nil hlt
    refine ⟨?_, ?_⟩
    · rw [hW2, hnil]
      rfl
    · rw [hO, hnil]
      rfl

/-- Witness for `C13_call_emits_subtree`: the call `r(b, 1, 0, 0)` with `n = 2` and the
buffer holding the header and the prefix `'0'`. -/
theorem C13_call_emits_subtree_witness :
    (1 ≤ 2 ∧ (-1 : Int) ≤ 0 ∧ (0 : Int) ≤ 9 ∧
        2 + 3 ≤ ([2, 44, 32, 48] ++ List.replicate 32 (0 : Int)).length ∧
        rd ([2, 44, 32, 48] ++ List.replicate 32 (0 : Int)) 0 = ((2 : Nat) : Int) ∧
        ((0 : Int) = 0 ∨ (0 : Int) = 1)) ∧
      (writesOf
        (r ⟨[2, 44, 32, 48] ++ List.replicate 32 (0 : Int), []⟩ (1 : Nat) 0 0).1.trace).length =
        Nat.choose (9 - (0 : Int)).toNat (2 - 1) :=
  ⟨by decide, (C13_call_emits_subtree 2 1 0 0 ([2, 44, 32, 48] ++ List.replicate 32 0)
    (by decide) (by decide) (by decide) (by decide) (by decide)
    (by decide)).2.2.2.2.2.2.1⟩

/-! ## Every byte read by a write was stored before -/

theorem justified_nil (n : Nat) (base : List Event) : Justified n base [] := by
  intro t1 t2 fd src off len h
  simp at h

theorem justified_store (n : Nat) (base : List Event) (idx val : Int) :
    Justified n base [Event.store idx val] := by
  intro t1 t2 fd src off len h
  cases t1 with
  | nil => simp at h
  | cons a t => simp at h

theorem justified_append (n : Nat) (base A B : List Event) (hA : Justified n base A)
    (hB : Justified n (base ++ A) B) : Justified n base (A ++ B) := by
  intro t1 t2 fd src off len h j h3 hj
  rcases List.append_eq_append_iff.mp h with ⟨a', ht1, hBe⟩ | ⟨c', hAe, hc⟩
  · have := hB a' t2 fd src off len hBe j h3 hj
    rw [ht1, ← List.append_assoc]
    exact this
  · cases c' with
    | nil =>
      have hBe : B = [] ++ Event.write fd src off len :: t2 := by simpa using hc.symm
      have := hB [] t2 fd src off len hBe j h3 hj
      have hA1 : A = t1 := by simpa using hAe
      rw [hA1] at this
      simpa using this
    | cons e c'' =>
      have he : Event.write fd src off len = e := by
        have := hc
        simp only [List.cons_append, List.cons.injEq] at this
        exact this.1
      subst he
      exact hA t1 c'' fd src off len hAe j h3 hj

theorem call_just_of_loop (m : Nat) (hA : LoopJust m) : CallJust m := by
  intro k i pre mid post tr first hpre hn hmid hinv
  cases k with
  | zero =>
    have hmid0 : mid = [] := List.length_eq_zero.mp hmid
    subst hmid0
    have hrd : rd (pre ++ [] ++ post) 0 = (i : Int) := by
      rw [List.append_assoc, rd_append_left _ _ (by omega), hn]
      simp
    have hexit : rLoop ⟨pre ++ [] ++ post, tr⟩ i (9 - m) first =
        (⟨pre ++ [] ++ post, tr⟩, first) :=
      rLoop_exit _ _ _ _ (fun h => h.2 hrd.symm)
    refine ⟨[], [Event.write 1 (pre ++ [] ++ post) (1 + 2 * first)
      (rd (pre ++ [] ++ post) 0 + 2 * (if first = 0 then 1 else 0))], rfl, ?_, ?_⟩
    · rw [r_leaf _ _ _ _ (by rw [hexit]; exact hrd.symm), hexit]
      rfl
    · intro t1 t2 fd src off len h j h3 hj
      cases t1 with
      | nil =>
        simp only [List.nil_append, List.cons.injEq, Event.write.injEq] at h
        obtain ⟨⟨_, hsrc, _, _⟩, _⟩ := h
        have hj2 : j < pre.length := by omega
        have hrdj : rd src j = rd pre j := by
          rw [← hsrc, List.append_nil]
          exact List.getD_append _ _ _ _ hj2
        rw [hrdj]
        simpa using hinv j h3 (by omega)
      | cons a t =>
        have := congrArg List.length h
        simp at this
  | succ k =>
    obtain ⟨mid', new, hlen, hst, hj⟩ := hA k i pre mid post tr first hpre hn hmid hinv
    have hne : (i : Int) ≠ rd (rLoop ⟨pre ++ mid ++ post, tr⟩ i (9 - m) first).1.buf 0 := by
      rw [hst]
      show (i : Int) ≠ rd (pre ++ mid' ++ post) 0
      rw [List.append_assoc, rd_append_left _ _ (by omega), hn]
      push_cast
      omega
    refine ⟨mid', new, hlen, ?_, hj⟩
    rw [r_inner _ _ _ _ hne, hst]

theorem loop_just_zero : LoopJust 0 := by
  intro k i pre mid post tr first hpre hn hmid hinv
  refine ⟨mid, [], hmid, ?_, justified_nil _ _⟩
  rw [rLoop_exit _ _ _ _ (by simp)]
  simp

theorem loop_just_succ (m : Nat) (hm : m + 1 ≤ 10) (hA : LoopJust m) (hB : CallJust m) :
    LoopJust (m + 1) := by
  intro k i pre mid post tr first hpre hn hmid hinv
  obtain ⟨x, mt, rfl⟩ : ∃ x mt, mid = x :: mt := by
    cases mid with
    | nil => simp at hmid
    | cons x mt => exact ⟨x, mt, rfl⟩
  have hmt : mt.length = k := by simpa using hmid
  have hc : (9 : Int) - ((m + 1 : Nat) : Int) + 1 = 9 - (m : Int) := by push_cast; ring
  have hguard : (9 : Int) - ((m + 1 : Nat) : Int) + 1 ≤ 9 ∧
      (i : Int) ≠ rd (Mem.mk (pre ++ x :: mt ++ post) tr).buf 0 := by
    refine ⟨by omega, ?_⟩
    show (i : Int) ≠ rd (pre ++ x :: mt ++ post) 0
    rw [List.append_assoc, rd_append_left _ _ (by omega), hn]
    push_cast
    omega
  have hstore : storeByte ⟨pre ++ x :: mt ++ post, tr⟩ ((i : Int) + 3) (9 - (m : Int) + 48) =
      ⟨(pre ++ [9 - (m : Int) + 48]) ++ mt ++ post,
        tr ++ [Event.store ((i : Int) + 3) (9 - (m : Int) + 48)]⟩ := by
    have h3 : ((i : Int) + 3).toNat = pre.length := by rw [hpre]; omega
    simp only [storeByte, h3]
    congr 1
    simp [List.set_append_right]
  rw [rLoop_iter _ _ _ _ hguard, hc, hstore]
  have hpre' : (pre ++ [9 - (m : Int) + 48]).length = (i + 1) + 3 := by
    simp [hpre]
  have hn' : rd (pre ++ [9 - (m : Int) + 48]) 0 = (((i + 1) + k : Nat) : Int) := by
    rw [rd_append_left _ _ (by omega), hn]
    push_cast
    ring
  have hinv1 : ∀ j : Nat, 3 ≤ j → j < (i + 1) + 3 →
      Event.store (j : Int) (rd (pre ++ [9 - (m : Int) + 48]) j) ∈
        tr ++ [Event.store ((i : Int) + 3) (9 - (m : Int) + 48)] := by
    intro j h3 hj
    by_cases hlt : j < i + 3
    · have hrdj : rd (pre ++ [9 - (m : Int) + 48]) j = rd pre j :=
        List.getD_append _ _ _ _ (by omega)
      rw [hrdj]
      exact List.mem_append_left _ (hinv j h3 hlt)
    · have hje : j = i + 3 := by omega
      have hrdj : rd (pre ++ [9 - (m : Int) + 48]) j = 9 - (m : Int) + 48 := by
        rw [rd, List.getD_append_right _ _ _ _ (by omega)]
        have h0 : j - pre.length = 0 := by omega
        rw [h0]
        rfl
      rw [hrdj, hje]
      apply List.mem_append_right
      simp
  obtain ⟨mt', new1, hlen', hst1, hj1⟩ := hB k (i + 1) _ mt post
    (tr ++ [Event.store ((i : Int) + 3) (9 - (m : Int) + 48)])
    (if first = 1 then 1 else 0) hpre' hn' hmt hinv1
  have hi1 : ((i + 1 : Nat) : Int) = (i : Int) + 1 := by push_cast; rfl
  rw [hi1] at hst1
  rw [hst1]
  have hbufeq : pre ++ [9 - (m : Int) + 48] ++ mt' ++ post =
      pre ++ ((9 - (m : Int) + 48) :: mt') ++ post := by simp
  rw [hbufeq]
  have hinv2 : ∀ j : Nat, 3 ≤ j → j < i + 3 → Event.store (j : Int) (rd pre j) ∈
      tr ++ [Event.store ((i : Int) + 3) (9 - (m : Int) + 48)] ++ new1 := by
    intro j h3 hj
    exact List.mem_append_left _ (List.mem_append_left _ (hinv j h3 hj))
  obtain ⟨mid2, new2, hlen2, hst2, hj2⟩ := hA k i pre ((9 - (m : Int) + 48) :: mt') post
    (tr ++ [Event.store ((i : Int) + 3) (9 - (m : Int) + 48)] ++ new1)
    (first - 1) hpre hn (by simp [hlen']) hinv2
  refine ⟨mid2, [Event.store ((i : Int) + 3) (9 - (m : Int) + 48)] ++ new1 ++ new2, hlen2,
    ?_, ?_⟩
  · rw [hst2]
    simp
  · have hnk : i + 1 + k = i + k + 1 := by omega
    rw [hnk] at hj1
    apply justified_append
    · exact justified_append _ _ _ _ (justified_store _ _ _ _) hj1
    · rw [← List.append_assoc]
      exact hj2

theorem loop_call_just (m : Nat) (hm : m ≤ 10) : LoopJust m ∧ CallJust m := by
  induction m with
  | zero => exact ⟨loop_just_zero, call_just_of_loop 0 loop_just_zero⟩
  | succ m ih =>
    have h := ih (by omega)
    have hl := loop_just_succ m hm h.1 h.2
    exact ⟨hl, call_just_of_loop (m + 1) hl⟩

theorem rTrace_justified (n : Nat) (h : n ≤ 33) : Justified n [] (rTrace n) := by
  have hsplit : (List.replicate 33 (0 : Int)) =
      List.replicate n 0 ++ List.replicate (33 - n) 0 := by
    rw [List.append_replicate_replicate]
    congr 1
    omega
  obtain ⟨mid, new, _, hst, hj⟩ := (loop_call_just 10 (le_refl 10)).2 n 0 [(n : Int), 44, 32]
    (List.replicate n 0) (List.replicate (33 - n) 0) [] 1 rfl (by simp [rd]) (by simp)
    (by intro j h3 hj; omega)
  rw [root_c] at hst
  have hst2 : (r ⟨[(n : Int), 44, 32] ++ List.replicate n 0 ++ List.replicate (33 - n) 0, []⟩
      0 (-1) 1).1 = ⟨[(n : Int), 44, 32] ++ mid ++ List.replicate (33 - n) 0, [] ++ new⟩ := by
    simpa using hst
  have hnew : rTrace n = new := by
    rw [rTrace, initBuf_eq n (by omega), hsplit, ← List.append_assoc, hst2]
    rfl
  rw [hnew]
  simpa using hj

/-- C15: for `1 ≤ n ≤ 9`, during the root call of `ft_print_combn(n)` every store has index
`3 ≤ idx ≤ n + 2 ≤ 11` and stores an ASCII digit, so the header `b[0..2]` is never modified
(it is `n`, `','`, `' '` in the buffer of every `write` and in the final buffer); every
base-case write has flag `first` 0 or 1, offset `1 + 2 * first ≥ 1` and end `3 + n`, inside
the 36-byte buffer; the bytes it passes to `write` are the header bytes `','`, `' '` or
digits, and every byte of `b[3..3+n)` it reads was put there by an earlier store. -/
theorem C15_buffer_accesses (n : Nat) (h1 : 1 ≤ n) (h9 : n ≤ 9) :
    (∀ idx val, Event.store idx val ∈ rTrace n →
        3 ≤ idx ∧ idx ≤ (n : Int) + 2 ∧ (n : Int) + 2 ≤ 11 ∧ 48 ≤ val ∧ val ≤ 57) ∧
      (∀ fd src off len, Event.write fd src off len ∈ rTrace n →
        ∃ f : Int, (f = 0 ∨ f = 1) ∧ off = 1 + 2 * f ∧
          len = (n : Int) + 2 * (if f = 0 then 1 else 0) ∧
          1 ≤ off ∧ off + len = 3 + (n : Int) ∧ src.length = 36 ∧
          src.take 3 = [(n : Int), 44, 32] ∧
          (∀ b ∈ (src.drop 3).take n, 48 ≤ b ∧ b ≤ 57) ∧
          ∀ b ∈ bytesOf (Event.write fd src off len), b = 44 ∨ b = 32 ∨ (48 ≤ b ∧ b ≤ 57)) ∧
      (∀ (t1 t2 : List Event) (fd : Int) (src : List Int) (off len : Int),
        rTrace n = t1 ++ Event.write fd src off len :: t2 →
        ∀ j : Nat, 3 ≤ j → j < 3 + n → Event.store (j : Int) (rd src j) ∈ t1) ∧
      (r ⟨initBuf n, []⟩ 0 (-1) 1).1.buf.length = 36 ∧
      (r ⟨initBuf n, []⟩ 0 (-1) 1).1.buf.take 3 = [(n : Int), 44, 32] := by
  obtain ⟨hst, _, hlen, _⟩ := rTrace_frame n (by omega)
  refine ⟨?_, ?_, ?_, hlen, root_buf n (by omega)⟩
  · intro idx val hmem
    have := hst idx val hmem
    omega
  · intro fd src off len hmem
    have hw := mem_writesOf hmem rfl
    rw [writesOf_rTrace n (by omega)] at hw
    obtain ⟨g, s, hg, hs, heq⟩ := mem_emit hw
    have hsl := incSeqs_length_of_mem hs
    have hdig := render_digits s (incSeqs_digit_le (le_refl 10) hs)
    have hbytes : ∀ b ∈ bytesOf (Event.write fd src off len),
        b = 44 ∨ b = 32 ∨ (48 ≤ b ∧ b ≤ 57) := by
      intro b hb
      rw [heq] at hb
      rcases hg with rfl | rfl
      · rw [bytesOf_leaf_later n _ _ _ _ s hsl] at hb
        simp only [List.cons_append, List.nil_append, List.mem_cons] at hb
        rcases hb with hb | hb | hb
        · exact Or.inl hb
        · exact Or.inr (Or.inl hb)
        · exact Or.inr (Or.inr (hdig b hb))
      · rw [bytesOf_leaf_first n _ _ _ _ s hsl] at hb
        exact Or.inr (Or.inr (hdig b hb))
    simp only [leafWrite, Event.write.injEq] at heq
    obtain ⟨_, rfl, rfl, rfl⟩ := heq
    refine ⟨g, hg, rfl, rfl, ?_, ?_, ?_, ?_, ?_, hbytes⟩
    · rcases hg with rfl | rfl
      · norm_num
      · norm_num
    · rcases hg with rfl | rfl
      · norm_num
        ring
      · norm_num
    · simp [render_length, hsl]
      omega
    · rfl
    · intro b hb
      have hsrc : ((([(n : Int), 44, 32] ++ render s ++ List.replicate (33 - n) 0).drop 3).take n)
          = render s := by
        simp only [List.append_assoc, List.cons_append, List.nil_append,
          List.drop_succ_cons, List.drop_zero]
        rw [List.take_append_of_le_length (by rw [render_length, hsl])]
        rw [List.take_of_length_le (by rw [render_length, hsl])]
      rw [hsrc] at hb
      exact hdig b hb
  · intro t1 t2 fd src off len h j h3 hj
    have := rTrace_justified n (by omega) t1 t2 fd src off len h j h3 hj
    simpa using this

/-- Witness for `C15_buffer_accesses` at `n = 4`. -/
theorem C15_buffer_accesses_witness :
    (1 ≤ 4 ∧ 4 ≤ 9) ∧
      (∀ idx val, Event.store idx val ∈ rTrace (4 : Nat) →
        3 ≤ idx ∧ idx ≤ ((4 : Nat) : Int) + 2 ∧ ((4 : Nat) : Int) + 2 ≤ 11 ∧
          48 ≤ val ∧ val ≤ 57) ∧
      (r ⟨initBuf (4 : Nat), []⟩ 0 (-1) 1).1.buf.take 3 = [((4 : Nat) : Int), 44, 32] :=
  ⟨by decide, (C15_buffer_accesses 4 (by decide) (by decide)).1,
    (C15_buffer_accesses 4 (by decide) (by decide)).2.2.2.2⟩

end FtPrintCombn
